import Mathlib

/-!
Verification of the go-ipk package library (package `ipk`).

The Go source is shallowly embedded: strings are lists of characters
(`Str`), Go maps are association lists whose iteration order is the list
order, tar streams are lists of entries (header plus payload), and the
gzip layers of the source - which store and recover the same bytes - are
modelled by keeping payloads in decompressed form.  Methods that mutate a
package in place and return an `error` are modelled as functions returning
the new package state together with an optional error, so that partial
mutation on the error path is observable.  I/O failures (temporary files,
stream errors) are outside the model: the corresponding code paths always
succeed here.
-/

namespace GoIpk

/-- Go strings, as lists of characters. -/
abbrev Str := List Char

/-- `slash` from file.go: prepends `./` to a path. -/
def slash (p : Str) : Str :=
  if ('.' :: '/' :: []).isPrefixOf p then p
  else if ('/' :: []).isPrefixOf p then '.' :: p
  else '.' :: '/' :: p

/-- `unslash` from file.go: recursively removes an initial `./` or `/`. -/
def unslash : Str → Str
  | '.' :: '/' :: rest => unslash rest
  | '/' :: rest => unslash rest
  | p => p

example : slash ("".data) = "./".data := by decide
example : slash ("foo".data) = "./foo".data := by decide
example : slash ("/bar".data) = "./bar".data := by decide
example : slash ("./baz".data) = "./baz".data := by decide
example : unslash (".///foo".data) = "foo".data := by decide
example : unslash ("././".data) = "".data := by decide
example : unslash ("./foo/./".data) = "foo/./".data := by decide

/-- Whether a real path element appended by `cleanLoop` must be preceded by
a separator (`rooted && out.w != 1 || !rooted && out.w != 0` in Go). -/
def needsSep (rooted : Bool) (out : List Char) : Bool :=
  if rooted then out.length != 1 else out.length != 0

/-- The backtracking loop of Go `path.Clean` for a `..` element: with the
output buffer kept reversed, pop characters until the popped position holds
a `/` or the `dotdot` barrier is reached.  The Go loop first decrements
`out.w` and then tests the character at the new `out.w`, which is the head
of the reversed buffer before popping. -/
def backtrack (dotdot : Nat) : List Char → List Char
  | [] => []
  | c :: rest => if rest.length > dotdot && c != '/' then backtrack dotdot rest else rest

/-- The output buffer with a separator prepended when a real path element
needs one. -/
def sepOut (rooted : Bool) (out : List Char) : List Char :=
  if needsSep rooted out then '/' :: out else out

/-- Handling of a `..` path element by Go `path.Clean`: backtrack when
possible, otherwise (when not rooted) append a `..` element; returns the
new output buffer (reversed) and the new `dotdot` barrier. -/
def dotdotStep (rooted : Bool) (out : List Char) (dotdot : Nat) : List Char × Nat :=
  if out.length > dotdot then (backtrack dotdot out, dotdot)
  else if !rooted then
    let out1 := if out.length > 0 then '.' :: '.' :: '/' :: out else '.' :: '.' :: out
    (out1, out1.length)
  else (out, dotdot)

mutual

/-- The element loop of Go `path.Clean`, processing one character per
step.  `out` is the output buffer in reversed order, `dotdot` the barrier
below which `..` may not backtrack.  A leading `.` is delegated to
`cleanDot`, the copying of a real path element (Go's inner `for` loop) to
`cleanElem`. -/
def cleanLoop (rooted : Bool) : List Char → List Char → Nat → List Char
  | [], out, _ => out
  | c :: rest, out, dotdot =>
    if c = '/' then
      -- empty path element
      cleanLoop rooted rest out dotdot
    else if c = '.' then
      cleanDot rooted rest out dotdot
    else
      -- real path element
      cleanElem rooted rest (c :: sepOut rooted out) dotdot

/-- Continuation of `cleanLoop` after a `.` at the start of an element:
distinguishes a `.` element, a `..` element, and a real element that
merely begins with a dot. -/
def cleanDot (rooted : Bool) : List Char → List Char → Nat → List Char
  | [], out, _ =>
    -- "." element at the end of the path
    out
  | c :: rest, out, dotdot =>
    if c = '/' then
      -- "." element
      cleanLoop rooted rest out dotdot
    else if c = '.' then
      if rest.isEmpty || rest.head? == some '/' then
        -- ".." element
        cleanLoop rooted rest (dotdotStep rooted out dotdot).1 (dotdotStep rooted out dotdot).2
      else
        -- real path element beginning with ".."
        cleanElem rooted rest ('.' :: '.' :: sepOut rooted out) dotdot
    else
      -- real path element beginning with "."
      cleanElem rooted rest (c :: '.' :: sepOut rooted out) dotdot

/-- Copies the remainder of a real path element up to the next separator
(the inner `for` loop of Go `path.Clean`'s default case). -/
def cleanElem (rooted : Bool) : List Char → List Char → Nat → List Char
  | [], out, _ => out
  | c :: rest, out, dotdot =>
    if c = '/' then cleanLoop rooted rest out dotdot
    else cleanElem rooted rest (c :: out) dotdot

end


/-- Go `path.Clean`, ported from the standard library. -/
def clean (p : Str) : Str :=
  match p with
  | [] => '.' :: []
  | c :: rest =>
    let out :=
      if c = '/' then cleanLoop true rest ('/' :: []) 1
      else cleanLoop false (c :: rest) [] 0
    if out.isEmpty then '.' :: [] else out.reverse

-- Test vectors from Go's path/path_test.go.
example : clean ("".data) = ".".data := by decide
example : clean ("abc".data) = "abc".data := by decide
example : clean ("abc/def".data) = "abc/def".data := by decide
example : clean ("a/b/c".data) = "a/b/c".data := by decide
example : clean (".".data) = ".".data := by decide
example : clean ("..".data) = "..".data := by decide
example : clean ("../..".data) = "../..".data := by decide
example : clean ("../../abc".data) = "../../abc".data := by decide
example : clean ("/abc".data) = "/abc".data := by decide
example : clean ("/".data) = "/".data := by decide
example : clean ("abc/".data) = "abc".data := by decide
example : clean ("abc/def/".data) = "abc/def".data := by decide
example : clean ("a/b/c/".data) = "a/b/c".data := by decide
example : clean ("./".data) = ".".data := by decide
example : clean ("../".data) = "..".data := by decide
example : clean ("../../".data) = "../..".data := by decide
example : clean ("/abc/".data) = "/abc".data := by decide
example : clean ("abc//def//ghi".data) = "abc/def/ghi".data := by decide
example : clean ("//abc".data) = "/abc".data := by decide
example : clean ("///abc".data) = "/abc".data := by decide
example : clean ("//abc//".data) = "/abc".data := by decide
example : clean ("abc//".data) = "abc".data := by decide
example : clean ("abc/./def".data) = "abc/def".data := by decide
example : clean ("/./abc/def".data) = "/abc/def".data := by decide
example : clean ("abc/.".data) = "abc".data := by decide
example : clean ("abc/..".data) = ".".data := by decide
example : clean ("abc/def/ghi/../jkl".data) = "abc/def/jkl".data := by decide
example : clean ("abc/def/../ghi/../jkl".data) = "abc/jkl".data := by decide
example : clean ("abc/def/..".data) = "abc".data := by decide
example : clean ("abc/def/../..".data) = ".".data := by decide
example : clean ("/abc/def/../..".data) = "/".data := by decide
example : clean ("abc/def/../../..".data) = "..".data := by decide
example : clean ("/abc/def/../../..".data) = "/".data := by decide
example : clean ("abc/def/../../../ghi/jkl/../../../mno".data) = "../../mno".data := by decide
example : clean ("abc/./../def".data) = "def".data := by decide
example : clean ("abc//./../def".data) = "def".data := by decide
example : clean ("abc/../../././../def".data) = "../../def".data := by decide

theorem backtrack_length (dotdot : Nat) :
    ∀ l : List Char, l ≠ [] → (backtrack dotdot l).length + 1 ≤ l.length := by
  intro l
  induction l with
  | nil => simp
  | cons c rest ih =>
    intro _
    rw [backtrack]
    split
    · rename_i hcond
      have hne : rest ≠ [] := by
        rcases rest with _ | _
        · simp at hcond
        · simp
      have := ih hne
      simp only [List.length_cons]
      omega
    · simp

/-- 1 when a real element appended to `out` must be preceded by a
separator, 0 otherwise. -/
def nsNat (rooted : Bool) (out : List Char) : Nat :=
  if needsSep rooted out then 1 else 0

theorem nsNat_le_one (rooted : Bool) (out : List Char) : nsNat rooted out ≤ 1 := by
  unfold nsNat; split <;> omega

theorem sepOut_length (rooted : Bool) (out : List Char) :
    (sepOut rooted out).length = out.length + nsNat rooted out := by
  unfold sepOut nsNat; split <;> simp

theorem dotdotStep_length (rooted : Bool) (out : List Char) (dotdot : Nat) :
    (dotdotStep rooted out dotdot).1.length ≤ out.length + 2 + nsNat rooted out := by
  unfold dotdotStep
  split
  · rename_i hgt
    have hout : out ≠ [] := by intro hy; subst hy; simp at hgt
    have hbt := backtrack_length dotdot out hout
    dsimp only
    omega
  · split
    · rename_i hgt hroot
      have hrooted : rooted = false := by simpa using hroot
      subst hrooted
      dsimp only
      split
      · rename_i hpos
        have hsep : needsSep false out = true := by
          unfold needsSep
          rw [if_neg (by simp)]
          simp only [bne_iff_ne, ne_eq]
          omega
        have hns : nsNat false out = 1 := by simp [nsNat, hsep]
        simp only [List.length_cons]
        omega
      · simp only [List.length_cons]
        omega
    · dsimp only
      omega

/-- Separator credit available to the element beginning at `p`: 1 when the
next element append will write a separator that was already consumed. -/
def sepBonus (rooted : Bool) (p out : List Char) : Nat :=
  if p.head? = none ∨ p.head? = some '/' then 0 else nsNat rooted out

theorem sepBonus_le_one (rooted : Bool) (p out : List Char) : sepBonus rooted p out ≤ 1 := by
  unfold sepBonus
  split
  · omega
  · exact nsNat_le_one rooted out

theorem sepBonus_zero_of_boundary (rooted : Bool) (p out : List Char)
    (h : p = [] ∨ p.head? = some '/') : sepBonus rooted p out = 0 := by
  unfold sepBonus
  rw [if_pos]
  rcases h with h | h
  · subst h; exact Or.inl rfl
  · exact Or.inr h

theorem sepBonus_cons (rooted : Bool) (c : Char) (rest out : List Char) (hc : c ≠ '/') :
    sepBonus rooted (c :: rest) out = nsNat rooted out := by
  unfold sepBonus
  rw [if_neg]
  simp [hc]

/-- The output of `path.Clean`'s main loop grows by at most the input
consumed plus a separator credit. -/
theorem clean_bounds (rooted : Bool) (p : List Char) :
    ((∀ out dotdot, (cleanLoop rooted p out dotdot).length
        ≤ out.length + p.length + sepBonus rooted p out)
      ∧ (∀ out dotdot, (cleanDot rooted p out dotdot).length
        ≤ out.length + p.length + 1 + nsNat rooted out))
    ∧ (∀ out dotdot, (cleanElem rooted p out dotdot).length ≤ out.length + p.length) := by
  refine ⟨⟨?_, ?_⟩, ?_⟩
  · intro out dotdot
    rcases p with _ | ⟨c, rest⟩
    · simp [cleanLoop]
    rw [cleanLoop]
    by_cases hc : c = '/'
    · rw [if_pos hc]
      have ih := (clean_bounds rooted rest).1.1 out dotdot
      have hb := sepBonus_le_one rooted rest out
      simp only [List.length_cons]
      omega
    rw [if_neg hc]
    by_cases hd : c = '.'
    · rw [if_pos hd]
      have ih := (clean_bounds rooted rest).1.2 out dotdot
      have hsp : sepBonus rooted (c :: rest) out = nsNat rooted out :=
        sepBonus_cons rooted c rest out hc
      simp only [List.length_cons]
      omega
    · rw [if_neg hd]
      have ih := (clean_bounds rooted rest).2 (c :: sepOut rooted out) dotdot
      have hso := sepOut_length rooted out
      have hsp : sepBonus rooted (c :: rest) out = nsNat rooted out :=
        sepBonus_cons rooted c rest out hc
      simp only [List.length_cons] at *
      omega
  · intro out dotdot
    rcases p with _ | ⟨c, rest⟩
    · simp [cleanDot]
      omega
    rw [cleanDot]
    by_cases hc : c = '/'
    · rw [if_pos hc]
      have ih := (clean_bounds rooted rest).1.1 out dotdot
      have hb := sepBonus_le_one rooted rest out
      simp only [List.length_cons]
      omega
    rw [if_neg hc]
    by_cases hd : c = '.'
    · rw [if_pos hd]
      split
      · rename_i hbd
        have hb0 : sepBonus rooted rest (dotdotStep rooted out dotdot).1 = 0 := by
          apply sepBonus_zero_of_boundary
          rcases rest with _ | ⟨c3, r3⟩
          · exact Or.inl rfl
          · right
            simp only [List.isEmpty_cons, Bool.or_eq_true, beq_iff_eq] at hbd
            rcases hbd with h | h
            · exact absurd h (by simp)
            · simpa using h
        have ih := (clean_bounds rooted rest).1.1
          (dotdotStep rooted out dotdot).1 (dotdotStep rooted out dotdot).2
        have hdl := dotdotStep_length rooted out dotdot
        simp only [List.length_cons]
        omega
      · have ih := (clean_bounds rooted rest).2 ('.' :: '.' :: sepOut rooted out) dotdot
        have hso := sepOut_length rooted out
        simp only [List.length_cons] at *
        omega
    · rw [if_neg hd]
      have ih := (clean_bounds rooted rest).2 (c :: '.' :: sepOut rooted out) dotdot
      have hso := sepOut_length rooted out
      simp only [List.length_cons] at *
      omega
  · intro out dotdot
    rcases p with _ | ⟨c, rest⟩
    · simp [cleanElem]
    rw [cleanElem]
    by_cases hc : c = '/'
    · rw [if_pos hc]
      have ih := (clean_bounds rooted rest).1.1 out dotdot
      have hb := sepBonus_le_one rooted rest out
      simp only [List.length_cons]
      omega
    · rw [if_neg hc]
      have ih := (clean_bounds rooted rest).2 (c :: out) dotdot
      simp only [List.length_cons] at *
      omega
termination_by p.length
decreasing_by all_goals simp

/-- `clean` never lengthens a nonempty path. -/
theorem clean_length_le (p : Str) (h : p ≠ []) : (clean p).length ≤ p.length := by
  rcases p with _ | ⟨c, rest⟩
  · exact absurd rfl h
  · rw [clean.eq_def]
    simp only
    by_cases hc : c = '/'
    · have hb := (clean_bounds true rest).1.1 ('/' :: []) 1
      have hs : sepBonus true rest ('/' :: []) = 0 := by
        unfold sepBonus nsNat needsSep
        split
        · rfl
        · simp
      rw [if_pos hc]
      split
      · simp only [List.length_cons, List.length_nil] at *
        omega
      · simp only [List.length_reverse, List.length_cons, List.length_nil] at *
        omega
    · have hb := (clean_bounds false (c :: rest)).1.1 [] 0
      have hs : sepBonus false (c :: rest) [] = 0 := by
        unfold sepBonus nsNat needsSep
        split
        · rfl
        · simp
      rw [if_neg hc]
      split
      · simp only [List.length_cons, List.length_nil] at *
        omega
      · simp only [List.length_reverse, List.length_cons, List.length_nil] at *
        omega


/-- Go `path.IsAbs`. -/
def isAbs (p : Str) : Bool := p.head? == some '/'

/-- Go `path.Split`: split after the final slash. -/
def splitPath (p : Str) : Str × Str :=
  let file := (p.reverse.takeWhile (fun c => c ≠ '/')).reverse
  (p.take (p.length - file.length), file)

example : splitPath ("/a/b".data) = ("/a/".data, "b".data) := by decide
example : splitPath ("/".data) = ("/".data, "".data) := by decide
example : splitPath ("abc".data) = ("".data, "abc".data) := by decide

/-- Go `path.Join` on two elements: empty elements are dropped, the rest is
joined with a slash and cleaned. -/
def joinPath (a b : Str) : Str :=
  if a.isEmpty && b.isEmpty then []
  else if a.isEmpty then clean b
  else if b.isEmpty then clean a
  else clean (a ++ '/' :: b)

example : joinPath ("/etc/foo".data) ("x.conf".data) = "/etc/foo/x.conf".data := by decide
example : joinPath ("/".data) ("a".data) = "/a".data := by decide

/-- The white-space class of Go `unicode.IsSpace` (as used by
`strings.TrimSpace`). -/
def goIsSpace (c : Char) : Bool :=
  c = ' ' || c = '\t' || c = '\n' || (c = Char.ofNat 0x0B) || (c = Char.ofNat 0x0C)
    || c = '\r' || (c = Char.ofNat 0x85) || (c = Char.ofNat 0xA0)
    || (c = Char.ofNat 0x1680) || (0x2000 ≤ c.toNat && c.toNat ≤ 0x200A)
    || (c = Char.ofNat 0x2028) || (c = Char.ofNat 0x2029) || (c = Char.ofNat 0x202F)
    || (c = Char.ofNat 0x205F) || (c = Char.ofNat 0x3000)

/-- Go `strings.TrimSpace`. -/
def trimSpace (s : Str) : Str :=
  ((s.dropWhile goIsSpace).reverse.dropWhile goIsSpace).reverse

example : trimSpace ("  a b \t\n".data) = "a b".data := by decide

/-- `dropCR` from Go `bufio`: drop a terminal carriage return. -/
def dropCR (l : Str) : Str := if l.getLast? == some '\r' then l.dropLast else l

/-- Helper for `lines`: `acc` is the current (unterminated) line, reversed. -/
def linesAux (acc : Str) : Str → List Str
  | [] => if acc.isEmpty then [] else [dropCR acc.reverse]
  | '\n' :: rest => dropCR acc.reverse :: linesAux [] rest
  | c :: rest => linesAux (c :: acc) rest

/-- The line splitting performed by a Go `bufio.Scanner` with `ScanLines`:
tokens are newline-terminated chunks without the newline (and without a
trailing carriage return); a final unterminated chunk is a token unless it
is empty. -/
def lines (s : Str) : List Str := linesAux [] s

example : lines ("ab\ncd".data) = ["ab".data, "cd".data] := by decide
example : lines ("ab\r\ncd\n".data) = ["ab".data, "cd".data] := by decide
example : lines ("".data) = [] := by decide
example : lines ("\n\n".data) = ["".data, "".data] := by decide

/-- Go `sort.Strings`: lexicographic sort.  The concrete sorting algorithm
is irrelevant (a fully sorted permutation is unique), so insertion sort
stands in for Go's pdqsort. -/
def sortStrs (l : List Str) : List Str := l.insertionSort (fun a b => a ≤ b)

example : sortStrs (["b".data, "a".data, "a".data]) = ["a".data, "a".data, "b".data] := by
  decide

/-- ASCII letter or hyphen: the class of `^[[:alpha:]-]+$` from ipk.go. -/
def isAlphaHyphen (c : Char) : Bool :=
  ('A' ≤ c && c ≤ 'Z') || ('a' ≤ c && c ≤ 'z') || c = '-'

/-- Matching `allowedFieldNames` (regexp `^[[:alpha:]-]+$`). -/
def allowedFieldNames (s : Str) : Bool := !s.isEmpty && s.all isAlphaHyphen

/-- ASCII lower-case letter: the class of `^[[:lower:]]+$` from control.go. -/
def isLowerAlpha (c : Char) : Bool := 'a' ≤ c && c ≤ 'z'

/-- Matching `allowedScriptNames` (regexp `^[[:lower:]]+$`). -/
def allowedScriptNames (s : Str) : Bool := !s.isEmpty && s.all isLowerAlpha

/-! ## The tar layer

A tar stream is modelled as the list of its entries.  A header carries the
fields the source reads or writes; sizes and times are integers.  Payloads
are kept in decompressed form: the gzip layers of the source compress on
write and decompress on read (or vice versa), so they are identities at
this level. -/

/-- `tar.TypeReg`. -/
def tarTypeReg : Char := '0'

/-- `tar.TypeRegA` (legacy regular file). -/
def tarTypeRegA : Char := Char.ofNat 0

/-- `tar.TypeSymlink`. -/
def tarTypeSymlink : Char := '2'

/-- `tar.TypeDir`. -/
def tarTypeDir : Char := '5'

/-- `header.Typeflag == tar.TypeReg || header.Typeflag == tar.TypeRegA`. -/
def isRegType (c : Char) : Bool := c = tarTypeReg || c = tarTypeRegA

/-- The fields of `tar.Header` used by the source. -/
structure Header where
  name : Str
  typeflag : Char
  mode : Int
  size : Int
  linkname : Str
  uname : Str
  gname : Str
  modTime : Int
deriving DecidableEq, Repr

/-- An entry of an inner (control or data) tar archive: a header plus an
optional payload (`none` for directories and symlinks). -/
structure TarEntry where
  header : Header
  data : Option Str
deriving DecidableEq, Repr

/-- Payload of an entry of the outer archive: either plain bytes (the
`debian-binary` marker) or a gzipped inner tar archive. -/
inductive OuterContent where
  | bytes (s : Str)
  | sub (es : List TarEntry)
deriving DecidableEq, Repr

/-- An entry of the outer tar archive. -/
structure OuterEntry where
  header : Header
  content : OuterContent
deriving DecidableEq, Repr

/-! ## Constants and special headers (archive.go, control.go, data.go) -/

/-- `archiveOwner`. -/
def archiveOwner : Str := "root".data

/-- `controlArchiveName`. -/
def controlArchiveName : Str := "control.tar.gz".data

/-- `controlName`. -/
def controlName : Str := "control".data

/-- `confName`. -/
def confName : Str := "conffiles".data

/-- `dataArchiveName`. -/
def dataArchiveName : Str := "data.tar.gz".data

/-- `specialHeader` from archive.go: a regular-file header (mode 0644) for
a non-negative size, a directory header (mode 0755) otherwise. -/
def specialHeader (name : Str) (size : Int) (modTime : Int) : Header :=
  if size ≥ 0 then
    { name := name, typeflag := tarTypeReg, mode := 0o644, size := size,
      linkname := [], uname := archiveOwner, gname := archiveOwner, modTime := modTime }
  else
    { name := name, typeflag := tarTypeDir, mode := 0o755, size := 0,
      linkname := [], uname := archiveOwner, gname := archiveOwner, modTime := modTime }

/-- `fileHeader` from archive.go. -/
def fileHeader (name : Str) (size : Int) (modTime : Int) : Header :=
  specialHeader name size modTime

/-- `directoryHeader` from archive.go. -/
def directoryHeader (name : Str) (modTime : Int) : Header :=
  specialHeader name (-1) modTime

/-- `addArchiveEntry` from archive.go: slash the header name and emit the
header with its (logically decompressed) payload. -/
def addArchiveEntry (header : Header) (gzdata : Option Str) : TarEntry :=
  { header := { header with name := slash header.name }, data := gzdata }

/-! ## The package model (ipk.go) -/

/-- The errors the model distinguishes.  Error message strings are not
modelled; only `os.ErrExist` and `ErrBadScriptName` are compared against
by the source, so all other errors collapse to `errMsg`. -/
inductive GoErr where
  | errMsg
  | errExist
  | errBadScriptName
deriving DecidableEq, Repr

deriving instance DecidableEq for Except

/-- A file of the data portion (`file` from file.go): a tar header plus
compressed data for regular files (`none` for everything else).  Payloads
are stored decompressed in the model. -/
structure FileData where
  header : Header
  data : Option Str
deriving DecidableEq, Repr

/-- The package type `T` from ipk.go.  The Go maps become association
lists; the list order doubles as the (in Go: unspecified) iteration
order. -/
structure T where
  fields : List (Str × Str)
  conffiles : List Str
  scripts : List (Str × FileData)
  files : List (Str × FileData)
deriving DecidableEq, Repr

/-- `New` from ipk.go. -/
def New : T := { fields := [], conffiles := [], scripts := [], files := [] }

/-- Go map assignment `m[k] = v`: replace the binding if the key is
present, append it otherwise. -/
def mapSet (m : List (Str × α)) (k : Str) (v : α) : List (Str × α) :=
  if (List.lookup k m).isSome then
    m.map (fun kv => if kv.1 = k then (k, v) else kv)
  else
    m ++ [(k, v)]

/-- `AddField` from ipk.go.  Returns the (possibly) mutated package and
the returned error. -/
def AddField (t : T) (name content : Str) : T × Option GoErr :=
  if !allowedFieldNames name then (t, some .errMsg)
  else
    let content := trimSpace content
    if content.contains '\n' then (t, some .errMsg)
    else if (List.lookup name t.fields).isSome then (t, some .errMsg)
    else ({ t with fields := mapSet t.fields name content }, none)

/-- `GetField` from ipk.go. -/
def GetField (t : T) (name : Str) : Option Str := List.lookup name t.fields

/-- `AddConffile` from ipk.go. -/
def AddConffile (t : T) (pathname : Str) : T × Option GoErr :=
  let cleaned := clean pathname
  if !isAbs cleaned then (t, some .errMsg)
  else if cleaned = "/".data then (t, some .errMsg)
  else ({ t with conffiles := t.conffiles ++ [cleaned] }, none)

/-- `Conffiles` from ipk.go returns a copy of the conffile list; at the
level of values this is the list itself (see `conffilesAlloc` for the
aliasing aspect). -/
def Conffiles (t : T) : List Str := t.conffiles

/-- `AddScript` from ipk.go.  The reader is an optional byte string
(`none` for a nil reader). -/
def AddScript (t : T) (name : Str) (r : Option Str) : T × Option GoErr :=
  match r with
  | none => (t, some .errMsg)
  | some content =>
    if name = controlName || name = confName || !allowedScriptNames name then
      (t, some .errBadScriptName)
    else if (List.lookup name t.scripts).isSome then (t, some .errMsg)
    else
      let f : FileData :=
        { header := { name := name, typeflag := tarTypeRegA, mode := 0,
                      size := Int.ofNat content.length, linkname := [],
                      uname := [], gname := [], modTime := 0 },
          data := some content }
      ({ t with scripts := mapSet t.scripts name f }, none)

/-- `ScriptNames` from ipk.go. -/
def ScriptNames (t : T) : List Str := t.scripts.map Prod.fst

/-- `GetScript` from ipk.go: the decompressed stream and the recorded
size. -/
def GetScript (t : T) (name : Str) : Option (Str × Int) :=
  (List.lookup name t.scripts).bind fun f =>
    f.data.map fun content => (content, f.header.size)

/-- `FileNames` from ipk.go. -/
def FileNames (t : T) : List Str := t.files.map Prod.fst

theorem splitPath_snd_length_le (p : Str) : (splitPath p).2.length ≤ p.length := by
  unfold splitPath
  dsimp only
  rw [List.length_reverse]
  calc (p.reverse.takeWhile (fun c => c ≠ '/')).length
      ≤ p.reverse.length := (List.takeWhile_sublist _).length_le
    _ = p.length := List.length_reverse p

theorem splitPath_fst_length_lt (p : Str) (h : (splitPath p).2 ≠ []) :
    (splitPath p).1.length < p.length := by
  have h2 : 1 ≤ (splitPath p).2.length := by
    rcases hh : (splitPath p).2 with _ | _
    · exact absurd hh h
    · simp
  have h1 := splitPath_snd_length_le p
  show ((splitPath p).1).length < p.length
  unfold splitPath at *
  dsimp only at *
  rw [List.length_take]
  omega

/-- The final insertion step of `AddFile`: fail with `os.ErrExist` when an
entry with the same name is present, insert otherwise. -/
def finishInsert (t : T) (f : FileData) : T × Option GoErr :=
  if (List.lookup f.header.name t.files).isSome then (t, some .errExist)
  else ({ t with files := mapSet t.files f.header.name f }, none)

/-- The body of `AddFile` after the `addDir` call.  `hdr` stands for the
header `tar.FileInfoHeader` derives from the supplied `os.FileInfo` (its
`name` is the file's base name); the call never fails in the model.  For a
regular file the payload is read from `r` (its compressed buffer is kept
decompressed here) and the header size is the number of bytes copied; for
a symlink the link target is read from `r`; for a directory the stripped
trailing slash is restored. -/
def addFileFinish (t : T) (dir : Str) (hdr : Header) (r : Option Str) : T × Option GoErr :=
  let fullpath := joinPath dir hdr.name
  let h1 : Header := { hdr with name := fullpath }
  if isRegType h1.typeflag then
    match r with
    | none => (t, some .errMsg)
    | some content =>
      finishInsert t
        { header := { h1 with size := Int.ofNat content.length }, data := some content }
  else if h1.typeflag = tarTypeSymlink then
    match r with
    | none => (t, some .errMsg)
    | some content =>
      finishInsert t { header := { h1 with linkname := content }, data := none }
  else if h1.typeflag = tarTypeDir then
    finishInsert t { header := { h1 with name := h1.name ++ ['/'] }, data := none }
  else
    finishInsert t { header := h1, data := none }

mutual

/-- `AddFile` from ipk.go.  First materializes the directory (treating
`os.ErrExist` as success), then inserts the file entry itself.  On an
error from `addDir` other than `os.ErrExist` the (possibly mutated)
package is returned with a wrapped error. -/
def AddFile (t : T) (dir : Str) (info : Option Header) (r : Option Str) : T × Option GoErr :=
  match info with
  | none => (t, some .errMsg)
  | some hdr =>
    let res := addDir t dir
    if res.2 = none ∨ res.2 = some GoErr.errExist then
      addFileFinish res.1 dir hdr r
    else (res.1, some .errMsg)
termination_by 2 * (clean dir).length + 2
decreasing_by omega

/-- `addDir` from ipk.go.  The `time.Now()` modification time of the
materialized directory header is modelled as 0; no claim inspects it. -/
def addDir (t : T) (dir : Str) : T × Option GoErr :=
  let cleaned := clean dir
  if h1 : (splitPath cleaned).1.isEmpty then (t, some .errMsg)
  else if h2 : (splitPath cleaned).2.isEmpty then (t, some .errExist)
  else
    AddFile t (splitPath cleaned).1
      (some (directoryHeader (splitPath cleaned).2 0)) none
termination_by 2 * (clean dir).length + 1
decreasing_by
  have hne : (splitPath (clean dir)).2 ≠ [] := by
    intro hy
    rw [hy] at h2
    simp at h2
  have hlt := splitPath_fst_length_lt (clean dir) hne
  have hfne : (splitPath (clean dir)).1 ≠ [] := by
    intro hy
    rw [hy] at h1
    simp at h1
  have hcl := clean_length_le (splitPath (clean dir)).1 hfne
  omega

end

/-! ## Control subsystem (control.go) -/

/-- `ControlPackage`. -/
def ControlPackage : Str := "Package".data

/-- `ControlVersion`. -/
def ControlVersion : Str := "Version".data

/-- `ControlArch`. -/
def ControlArch : Str := "Architecture".data

/-- `ControlDep`. -/
def ControlDep : Str := "Depends".data

/-- `ControlMaintainer`. -/
def ControlMaintainer : Str := "Maintainer".data

/-- `ControlDesc`. -/
def ControlDesc : Str := "Description".data

/-- `ControlHomepage`. -/
def ControlHomepage : Str := "Homepage".data

/-- The `mandatoryFields` slice of `addControl`, in its fixed order. -/
def mandatoryFields : List Str :=
  [ControlPackage, ControlVersion, ControlArch, ControlMaintainer, ControlDesc]

/-- One `Name: value\n` line of the control file. -/
def fieldLine (k v : Str) : Str := k ++ ':' :: ' ' :: (v ++ '\n' :: [])

/-- Concatenation of text lines (each already newline-terminated). -/
def joinLines (ls : List Str) : Str := ls.foldr (fun l acc => l ++ acc) []

/-- The mandatory-field prefix of the control file: each field of `ms` in
order, failing on the first one missing from the field map. -/
def mandatoryText (fields : List (Str × Str)) : List Str → Except GoErr Str
  | [] => .ok []
  | m :: ms =>
    match List.lookup m fields with
    | none => .error .errMsg
    | some v =>
      match mandatoryText fields ms with
      | .ok rest => .ok (fieldLine m v ++ rest)
      | .error e => .error e

/-- The non-mandatory fields in iteration order.  `addControl` skips
mandatory names via a binary search in the sorted `mandatoryFields` slice,
which is membership in that five-element set. -/
def remainingFields (fields : List (Str × Str)) : List (Str × Str) :=
  fields.filter (fun kv => !(mandatoryFields.contains kv.1))

/-- The control file text produced by `addControl` when the field map is
iterated in the order of `fields`: mandatory fields first in their fixed
order, then the remaining fields. -/
def addControlText (fields : List (Str × Str)) : Except GoErr Str :=
  match mandatoryText fields mandatoryFields with
  | .error e => .error e
  | .ok m => .ok (m ++ joinLines ((remainingFields fields).map (fun kv => fieldLine kv.1 kv.2)))

/-- `addControl` from control.go: the control file entry. -/
def addControl (t : T) (modTime : Int) : Except GoErr TarEntry :=
  match addControlText t.fields with
  | .error e => .error e
  | .ok text =>
    .ok { header := fileHeader (slash controlName) (Int.ofNat text.length) modTime,
          data := some text }

/-- The text of the conffiles file: one path per line, sorted. -/
def conffilesText (conffiles : List Str) : Str :=
  joinLines ((sortStrs conffiles).map (fun f => f ++ '\n' :: []))

/-- `addConffiles` from control.go: no entry when there are no
configuration files. -/
def addConffiles (t : T) (modTime : Int) : List TarEntry :=
  if t.conffiles.isEmpty then []
  else
    [{ header := fileHeader (slash confName) (Int.ofNat (conffilesText t.conffiles).length) modTime,
       data := some (conffilesText t.conffiles) }]

/-- `addScript` from control.go: a regular-file header with the executable
bits forced on (0644 with 0111 merged in is 0755), pushed through
`addArchiveEntry`. -/
def addScriptEntry (name : Str) (size : Int) (modTime : Int) (gzdata : Option Str) : TarEntry :=
  addArchiveEntry { fileHeader name size modTime with mode := 0o755 } gzdata

/-- `fillControlArchive` from control.go: root directory entry, control
file, conffiles (when nonempty), then one entry per script in iteration
order. -/
def fillControlArchive (t : T) (modTime : Int) : Except GoErr (List TarEntry) :=
  match addControl t modTime with
  | .error e => .error e
  | .ok ctrl =>
    .ok ({ header := directoryHeader ('.' :: '/' :: []) modTime, data := none }
      :: ctrl :: (addConffiles t modTime
      ++ t.scripts.map (fun s => addScriptEntry s.1 s.2.header.size modTime s.2.data)))

/-- `readControlLine` from control.go: split at the first colon and insert
as a field; lines without a colon are ignored. -/
def readControlLine (t : T) (line : Str) : T × Option GoErr :=
  if line.contains ':' then
    AddField t (line.takeWhile (fun c => c ≠ ':')) ((line.dropWhile (fun c => c ≠ ':')).tail)
  else (t, none)

/-- The scanner loop of `readControl`. -/
def readControlLines (t : T) : List Str → Except GoErr T
  | [] => .ok t
  | l :: ls =>
    match readControlLine t l with
    | (t1, none) => readControlLines t1 ls
    | (_, some _) => .error .errMsg

/-- `readControl` from control.go. -/
def readControl (t : T) (content : Str) : Except GoErr T :=
  readControlLines t (lines content)

/-- The scanner loop of `readConffiles`; empty lines are ignored. -/
def readConffileLines (t : T) : List Str → Except GoErr T
  | [] => .ok t
  | l :: ls =>
    if l.isEmpty then readConffileLines t ls
    else
      match AddConffile t l with
      | (t1, none) => readConffileLines t1 ls
      | (_, some _) => .error .errMsg

/-- `readConffiles` from control.go: read all lines, then re-sort the
conffile list. -/
def readConffiles (t : T) (content : Str) : Except GoErr T :=
  match readConffileLines t (lines content) with
  | .ok t1 => .ok { t1 with conffiles := sortStrs t1.conffiles }
  | .error e => .error e

/-- The entry loop of `readControlArchive`: non-regular entries are
skipped; the control and conffiles files may appear at most once; any
other name is attempted as a script, with `ErrBadScriptName` skipping the
entry and any other error fatal.  The control file is mandatory. -/
def readControlEntries (t : T) (controlRead conffilesRead : Bool) :
    List TarEntry → Except GoErr T
  | [] => if !controlRead then .error .errMsg else .ok t
  | e :: rest =>
    if !isRegType e.header.typeflag then
      readControlEntries t controlRead conffilesRead rest
    else
      let name := clean (unslash e.header.name)
      if name = controlName then
        if controlRead then .error .errMsg
        else
          match readControl t (e.data.getD []) with
          | .ok t1 => readControlEntries t1 true conffilesRead rest
          | .error _ => .error .errMsg
      else if name = confName then
        if conffilesRead then .error .errMsg
        else
          match readConffiles t (e.data.getD []) with
          | .ok t1 => readControlEntries t1 controlRead true rest
          | .error _ => .error .errMsg
      else
        match AddScript t name (some (e.data.getD [])) with
        | (t1, none) => readControlEntries t1 controlRead conffilesRead rest
        | (_, some GoErr.errBadScriptName) => readControlEntries t controlRead conffilesRead rest
        | (_, some _) => .error .errMsg

/-- `readControlArchive` from control.go.  A `bytes` payload models an
outer entry that is not a gzip stream. -/
def readControlArchive (t : T) (c : OuterContent) : Except GoErr T :=
  match c with
  | .bytes _ => .error .errMsg
  | .sub es => readControlEntries t false false es

/-! ## Data subsystem (data.go) -/

/-- `setFileData` from data.go: store the incoming header as is, with the
payload re-compressed (kept decompressed in the model) for regular files
and dropped for everything else. -/
def setFileData (t : T) (name : Str) (header : Header) (r : Str) : T :=
  if isRegType header.typeflag then
    { t with files := mapSet t.files name { header := header, data := some r } }
  else
    { t with files := mapSet t.files name { header := header, data := none } }

/-- The entry loop of `readDataArchive`: canonicalize the name, skip the
root and parent-directory escapes, fail on a duplicate (the check uses the
bare `name` while the entry is stored under `"/" + name`), and store the
entry. -/
def readDataEntries (t : T) : List TarEntry → Except GoErr T
  | [] => .ok t
  | e :: rest =>
    let name := clean (unslash e.header.name)
    if name = ".".data ∨ name = "..".data ∨ ("../".data).isPrefixOf name then
      readDataEntries t rest
    else if (List.lookup name t.files).isSome then
      .error .errMsg
    else
      readDataEntries (setFileData t ('/' :: name) e.header (e.data.getD [])) rest

/-- `readDataArchive` from data.go. -/
def readDataArchive (t : T) (c : OuterContent) : Except GoErr T :=
  match c with
  | .bytes _ => .error .errMsg
  | .sub es => readDataEntries t es

/-- `fillDataArchive` from data.go: root directory entry, then every file
entry in sorted key order, each pushed through `addArchiveEntry`. -/
def fillDataArchive (t : T) (modTime : Int) : List TarEntry :=
  addArchiveEntry (directoryHeader ('.' :: '/' :: []) modTime) none
    :: (sortStrs (t.files.map Prod.fst)).filterMap
        (fun path => (List.lookup path t.files).map (fun f => addArchiveEntry f.header f.data))

/-! ## Container reader/writer (write.go / read.go) -/

/-- `writeDebianBinary`: the fixed `./debian-binary` marker entry. -/
def writeDebianBinary (modTime : Int) : OuterEntry :=
  { header := fileHeader ("./debian-binary".data) (Int.ofNat ("2.0\n".data).length) modTime,
    content := .bytes ("2.0\n".data) }

/-- `writeTar`: marker entry, control sub-archive, data sub-archive, all
with one shared modification time.  The byte sizes of the two staged
sub-archives (produced by `Finish` in the source) are not modelled; the
reader never consults them. -/
def writeTar (t : T) (modTime : Int) : Except GoErr (List OuterEntry) :=
  match fillControlArchive t modTime with
  | .error e => .error e
  | .ok ces =>
    .ok [ writeDebianBinary modTime,
          { header := fileHeader (slash controlArchiveName) 0 modTime, content := .sub ces },
          { header := fileHeader (slash dataArchiveName) 0 modTime,
            content := .sub (fillDataArchive t modTime) } ]

/-- The entry loop of `readTar`: only regular entries are inspected; each
sub-archive may be read at most once; the control sub-archive is
mandatory. -/
def readTarEntries (t : T) (controlRead dataRead : Bool) :
    List OuterEntry → Except GoErr T
  | [] => if !controlRead then .error .errMsg else .ok t
  | e :: rest =>
    if !isRegType e.header.typeflag then readTarEntries t controlRead dataRead rest
    else if unslash e.header.name = controlArchiveName then
      if controlRead then .error .errMsg
      else
        match readControlArchive t e.content with
        | .ok t1 => readTarEntries t1 true dataRead rest
        | .error _ => .error .errMsg
    else if unslash e.header.name = dataArchiveName then
      if dataRead then .error .errMsg
      else
        match readDataArchive t e.content with
        | .ok t1 => readTarEntries t1 controlRead true rest
        | .error _ => .error .errMsg
    else readTarEntries t controlRead dataRead rest

/-- `readTar` from read.go. -/
def readTar (es : List OuterEntry) : Except GoErr T := readTarEntries New false false es

/-! ## Formats and compression levels (format.go, archive.go, write.go) -/

/-- `FormatUnknown`. -/
def FormatUnknown : Nat := 0

/-- `formatGZip`. -/
def formatGZip : Nat := 1

/-- `FormatTar`. -/
def FormatTar : Nat := 2

/-- `FormatTarGZip = FormatTar | formatGZip`. -/
def FormatTarGZip : Nat := 3

/-- `gzip.BestCompression`. -/
def gzipBestCompression : Int := 9

/-- `gzip.NoCompression`. -/
def gzipNoCompression : Int := 0

/-- `compressionLevel` from archive.go. -/
def compressionLevel (compress : Bool) : Int :=
  if compress then gzipBestCompression else gzipNoCompression

/-- The gzip level `newTempArchive` hands to `gzip.NewWriterLevel`; the
gzip layer is present for either value. -/
def newTempArchiveLevel (compress : Bool) : Int := compressionLevel compress

/-- Go `format &^ formatGZip`. -/
def formatAndNotGZip (format : Nat) : Nat := format - (format &&& formatGZip)

/-- The `compress` argument `Write` passes to `writeTar` for the inner
sub-archives: `format&formatGZip == 0`. -/
def writeInnerCompress (format : Nat) : Bool := format &&& formatGZip == 0

/-- `Write` from write.go, modulo I/O: validate the format, emit the tar
entries, and record the gzip level used for the two inner sub-archives
(the outer gzip wrapper, applied when `format&formatGZip != 0`, does not
change the entry structure). -/
def Write (t : T) (format : Nat) (modTime : Int) : Except GoErr (List OuterEntry × Int) :=
  if formatAndNotGZip format ≠ FormatTar then .error .errMsg
  else
    match writeTar t modTime with
    | .error e => .error e
    | .ok es => .ok (es, newTempArchiveLevel (writeInnerCompress format))

/-! ## Association-list lemmas -/

theorem mapSet_not_mem {α : Type} (m : List (Str × α)) (k : Str) (v : α)
    (h : List.lookup k m = none) : mapSet m k v = m ++ [(k, v)] := by
  unfold mapSet
  rw [h]
  rfl

theorem lookup_eq_none_iff {α : Type} (k : Str) (l : List (Str × α)) :
    List.lookup k l = none ↔ k ∉ l.map Prod.fst := by
  induction l with
  | nil =>
    constructor
    · intro _
      simp only [List.map_nil]
      exact List.not_mem_nil k
    · intro _
      rfl
  | cons kv rest ih =>
    rcases kv with ⟨k0, v0⟩
    rw [List.lookup_cons]
    by_cases hk : k = k0
    · subst hk
      rw [(by simp : (k == k) = true)]
      dsimp only
      constructor
      · intro h
        cases h
      · intro h
        exact absurd (by simp only [List.map_cons, List.mem_cons]; exact Or.inl trivial) h
    · rw [(by simp [hk] : (k == k0) = false)]
      dsimp only
      rw [ih]
      simp only [List.map_cons, List.mem_cons, not_or]
      constructor
      · intro h
        exact ⟨hk, h⟩
      · intro h
        exact h.2

theorem lookup_isSome_of_mem {α : Type} (k : Str) (l : List (Str × α))
    (h : k ∈ l.map Prod.fst) : (List.lookup k l).isSome := by
  rcases hl : List.lookup k l with _ | v
  · rw [lookup_eq_none_iff] at hl
    exact absurd h hl
  · rfl

/-- Lookup in an association list with distinct keys is invariant under
permutation. -/
theorem lookup_eq_of_perm {α : Type} (k : Str) {l1 l2 : List (Str × α)}
    (hperm : l1.Perm l2) (hnd : (l1.map Prod.fst).Nodup) :
    List.lookup k l1 = List.lookup k l2 := by
  induction hperm with
  | nil => rfl
  | cons x h ih =>
    rcases x with ⟨k0, v0⟩
    rw [List.lookup_cons, List.lookup_cons]
    rcases hbeq : (k == k0) with _ | _
    · dsimp only
      apply ih
      simp only [List.map_cons, List.nodup_cons] at hnd
      exact hnd.2
    · dsimp only
  | swap x y l =>
    rcases x with ⟨kx, vx⟩
    rcases y with ⟨ky, vy⟩
    rw [List.lookup_cons, List.lookup_cons, List.lookup_cons, List.lookup_cons]
    rcases hbx : (k == kx) with _ | _ <;> rcases hby : (k == ky) with _ | _ <;> dsimp only
    exfalso
    have hx : k = kx := by simpa using hbx
    have hy : k = ky := by simpa using hby
    simp only [List.map_cons, List.nodup_cons, List.mem_cons] at hnd
    exact hnd.1 (Or.inl (hy ▸ hx ▸ rfl))
  | trans h1 h2 ih1 ih2 =>
    rw [ih1 hnd]
    exact ih2 ((h1.map Prod.fst).nodup_iff.mp hnd)

/-! ## Claim theorems -/

/-- Claim C10: `Write` builds the two inner sub-archives with gzip
`NoCompression` when the outer format is `FormatTarGZip` and with gzip
`BestCompression` when it is `FormatTar`; the gzip layer is present either
way (`newTempArchiveLevel` is handed to `gzip.NewWriterLevel`
unconditionally). -/
theorem write_inner_gzip_level :
    (∀ t modTime, Write t FormatTarGZip modTime
        = (writeTar t modTime).map (fun es => (es, gzipNoCompression)))
    ∧ (∀ t modTime, Write t FormatTar modTime
        = (writeTar t modTime).map (fun es => (es, gzipBestCompression)))
    ∧ newTempArchiveLevel (writeInnerCompress FormatTarGZip) = gzipNoCompression
    ∧ newTempArchiveLevel (writeInnerCompress FormatTar) = gzipBestCompression := by
  refine ⟨?_, ?_, by decide, by decide⟩
  · intro t modTime
    unfold Write
    rw [if_neg (by decide)]
    rcases writeTar t modTime with e | es
    · rfl
    · show Except.ok (es, newTempArchiveLevel (writeInnerCompress FormatTarGZip)) = _
      rw [(by decide : newTempArchiveLevel (writeInnerCompress FormatTarGZip) = gzipNoCompression)]
      rfl
  · intro t modTime
    unfold Write
    rw [if_neg (by decide)]
    rcases writeTar t modTime with e | es
    · rfl
    · show Except.ok (es, newTempArchiveLevel (writeInnerCompress FormatTar)) = _
      rw [(by decide : newTempArchiveLevel (writeInnerCompress FormatTar) = gzipBestCompression)]
      rfl

theorem mandatoryText_error (fields : List (Str × Str)) (ms : List Str) (m : Str)
    (hm : m ∈ ms) (hnone : List.lookup m fields = none) :
    mandatoryText fields ms = .error GoErr.errMsg := by
  induction ms with
  | nil => cases hm
  | cons m0 ms ih =>
    rw [mandatoryText]
    rcases List.mem_cons.mp hm with h | h
    · subst h
      rw [hnone]
    · rcases h0 : List.lookup m0 fields with _ | v
      · rfl
      · rw [ih h]

theorem mandatoryText_ok (fields : List (Str × Str)) (ms : List Str)
    (h : ∀ m ∈ ms, (List.lookup m fields).isSome) :
    ∃ s, mandatoryText fields ms = .ok s := by
  induction ms with
  | nil => exact ⟨[], rfl⟩
  | cons m0 ms ih =>
    rcases h0 : List.lookup m0 fields with _ | v
    · have := h m0 (by simp)
      rw [h0] at this
      cases this
    · rcases ih (fun m hm => h m (by simp [hm])) with ⟨s, hs⟩
      refine ⟨fieldLine m0 v ++ s, ?_⟩
      rw [mandatoryText, h0, hs]

/-- Claim C5: the control sub-archive cannot be produced when any of the
five mandatory fields is missing, and a package holding exactly the five
mandatory fields (and nothing else) writes successfully. -/
theorem mandatory_field_enforcement :
    (∀ t modTime m, m ∈ mandatoryFields → List.lookup m t.fields = none →
      fillControlArchive t modTime = .error GoErr.errMsg)
    ∧ (∀ t modTime, (t.fields.map Prod.fst).Perm mandatoryFields →
      ∃ es, writeTar t modTime = .ok es) := by
  constructor
  · intro t modTime m hm hnone
    unfold fillControlArchive addControl addControlText
    rw [mandatoryText_error t.fields mandatoryFields m hm hnone]
  · intro t modTime hperm
    have hsome : ∀ m ∈ mandatoryFields, (List.lookup m t.fields).isSome := by
      intro m hm
      exact lookup_isSome_of_mem m t.fields (hperm.mem_iff.mpr hm)
    rcases mandatoryText_ok t.fields mandatoryFields hsome with ⟨s, hs⟩
    unfold writeTar fillControlArchive addControl addControlText
    rw [hs]
    exact ⟨_, rfl⟩

/-- Witness for `mandatory_field_enforcement` at a concrete package. -/
theorem mandatory_field_enforcement_witness :
    (fillControlArchive { New with fields := [(ControlVersion, "1".data)] } 0
        = .error GoErr.errMsg)
    ∧ ∃ es, writeTar { New with fields :=
        [(ControlPackage, "foo".data), (ControlVersion, "1".data),
         (ControlArch, "all".data), (ControlMaintainer, "m".data),
         (ControlDesc, "d".data)] } 0 = .ok es := by
  constructor
  · exact mandatory_field_enforcement.1 _ 0 ControlPackage (by decide) (by decide)
  · exact mandatory_field_enforcement.2 _ 0 (by decide)

/-- A run of leading `./` and `/` prefixes, as stripped by `unslash`. -/
inductive IsSlashRun : Str → Prop where
  | nil : IsSlashRun []
  | dot (r : Str) : IsSlashRun r → IsSlashRun ('.' :: '/' :: r)
  | sep (r : Str) : IsSlashRun r → IsSlashRun ('/' :: r)

theorem unslash_eq_self (p : Str)
    (h1 : ¬ (("./".data).isPrefixOf p = true)) (h2 : ¬ (("/".data).isPrefixOf p = true)) :
    unslash p = p := by
  rw [unslash.eq_def]
  split
  · exact absurd (by simp [List.isPrefixOf]) h1
  · exact absurd (by simp [List.isPrefixOf]) h2
  · rfl

theorem unslash_decomposition (p : Str) :
    ∃ pre, IsSlashRun pre ∧ p = pre ++ unslash p
      ∧ ¬ (("./".data).isPrefixOf (unslash p) = true)
      ∧ ¬ (("/".data).isPrefixOf (unslash p) = true) := by
  induction p using unslash.induct with
  | case1 rest ih =>
    rcases ih with ⟨pre, hrun, heq, hp1, hp2⟩
    refine ⟨'.' :: '/' :: pre, IsSlashRun.dot pre hrun, ?_, ?_, ?_⟩
    · rw [unslash]
      rw [List.cons_append, List.cons_append]
      rw [← heq]
    · rw [unslash]
      exact hp1
    · rw [unslash]
      exact hp2
  | case2 rest ih =>
    rcases ih with ⟨pre, hrun, heq, hp1, hp2⟩
    -- the matched pattern here is '/' :: rest with rest not led by a dot-slash
    refine ⟨'/' :: pre, IsSlashRun.sep pre hrun, ?_, ?_, ?_⟩
    · rw [unslash]
      rw [List.cons_append]
      rw [← heq]
    · rw [unslash]
      exact hp1
    · rw [unslash]
      exact hp2
  | case3 p h1 h2 =>
    have hu : unslash p = p := by
      rw [unslash.eq_def]
      split
      · rename_i rest
        exact absurd rfl (h1 rest)
      · rename_i rest
        exact absurd rfl (h2 rest)
      · rfl
    refine ⟨[], IsSlashRun.nil, by rw [hu]; rfl, ?_, ?_⟩
    · rw [hu]
      intro hpre
      rcases (List.isPrefixOf_iff_prefix.mp hpre) with ⟨t, ht⟩
      exact absurd ht.symm (h1 t)
    · rw [hu]
      intro hpre
      rcases (List.isPrefixOf_iff_prefix.mp hpre) with ⟨t, ht⟩
      exact absurd ht.symm (h2 t)

/-- Claim C7 counterexample: `"././foo"` begins with `"./"` but is not
recovered by `slash` after `unslash`. -/
theorem slash_unslash_counterexample :
    ("./".data).isPrefixOf ("././foo".data) = true
    ∧ slash (unslash ("././foo".data)) ≠ "././foo".data := by
  decide

/-- Claim C7 (amended): `slash` and `unslash` are total; `slash ∘ unslash`
is the identity on paths of the fully canonical form `"./" ++ s` where `s`
carries no further `./` or `/` prefix (not on every path beginning with
`"./"`); and `unslash` splits every path into a run of leading `./`/`/`
prefixes followed by its unchanged remainder. -/
theorem slash_unslash_amended :
    (∀ s : Str, ¬ (("./".data).isPrefixOf s = true) → ¬ (("/".data).isPrefixOf s = true) →
        slash (unslash ('.' :: '/' :: s)) = '.' :: '/' :: s)
    ∧ (∀ p : Str, ∃ pre, IsSlashRun pre ∧ p = pre ++ unslash p
        ∧ ¬ (("./".data).isPrefixOf (unslash p) = true)
        ∧ ¬ (("/".data).isPrefixOf (unslash p) = true)) := by
  constructor
  · intro s h1 h2
    rw [unslash]
    rw [unslash_eq_self s h1 h2]
    unfold slash
    rw [if_neg h1, if_neg h2]
  · exact unslash_decomposition

/-- Witness for `slash_unslash_amended` at concrete inputs. -/
theorem slash_unslash_amended_witness :
    slash (unslash ("./foo".data)) = "./foo".data
    ∧ ∃ pre, IsSlashRun pre ∧ "//x".data = pre ++ unslash ("//x".data)
        ∧ ¬ (("./".data).isPrefixOf (unslash ("//x".data)) = true)
        ∧ ¬ (("/".data).isPrefixOf (unslash ("//x".data)) = true) := by
  constructor
  · exact slash_unslash_amended.1 ("foo".data) (by decide) (by decide)
  · exact slash_unslash_amended.2 ("//x".data)

theorem backtrack_suffix (dotdot : Nat) : ∀ l : List Char, (backtrack dotdot l).IsSuffix l := by
  intro l
  induction l with
  | nil => exact List.suffix_rfl
  | cons c rest ih =>
    rw [backtrack]
    split
    · exact ih.trans (List.suffix_cons c rest)
    · exact List.suffix_cons c rest

theorem getLast_of_suffix {l s : List Char} (h : s.IsSuffix l) (hne : s ≠ []) :
    s.getLast? = l.getLast? := by
  rcases h with ⟨t, ht⟩
  rw [← ht]
  exact (List.getLast?_append_of_ne_nil t hne).symm

theorem backtrack_getLast (dotdot : Nat) (l : List Char) (h : l.getLast? ≠ some '/') :
    (backtrack dotdot l).getLast? ≠ some '/' := by
  rcases hb : backtrack dotdot l with _ | ⟨c, rest⟩
  · simp
  · rw [← hb]
    rw [getLast_of_suffix (backtrack_suffix dotdot l) (by rw [hb]; simp)]
    exact h

theorem cons_getLast (c : Char) (l : List Char) (hne : l ≠ []) :
    (c :: l).getLast? = l.getLast? := by
  rcases l with _ | ⟨d, rest⟩
  · exact absurd rfl hne
  · exact List.getLast?_cons_cons

theorem sepOut_getLast (out : List Char) (h : out.getLast? ≠ some '/') :
    (sepOut false out).getLast? ≠ some '/' := by
  unfold sepOut needsSep
  rcases out with _ | ⟨c, rest⟩
  · simp
  · rw [if_neg (Bool.false_ne_true)]
    rw [if_pos (by simp)]
    rw [cons_getLast '/' (c :: rest) (by simp)]
    exact h

theorem sepOut_ne_last (out : List Char) (h : out.getLast? ≠ some '/') (c : Char)
    (hc : c ≠ '/') : (c :: sepOut false out).getLast? ≠ some '/' := by
  rcases hso : sepOut false out with _ | ⟨d, rest⟩
  · simp [hc]
  · rw [cons_getLast c (d :: rest) (by simp)]
    rw [← hso]
    exact sepOut_getLast out h

theorem dotdotStep_getLast (out : List Char) (dotdot : Nat) (h : out.getLast? ≠ some '/') :
    (dotdotStep false out dotdot).1.getLast? ≠ some '/' := by
  unfold dotdotStep
  split
  · exact backtrack_getLast dotdot out h
  · rw [if_pos (by simp)]
    dsimp only
    split
    · rename_i hpos
      have hne : out ≠ [] := by
        intro hy
        subst hy
        simp at hpos
      rw [cons_getLast '.' ('.' :: '/' :: out) (by simp)]
      rw [cons_getLast '.' ('/' :: out) (by simp)]
      rw [cons_getLast '/' out hne]
      exact h
    · rename_i hpos
      have hy : out = [] := by
        rcases out with _ | _
        · rfl
        · simp at hpos
      subst hy
      simp

/-- On a non-rooted input, the main loop of `clean` never produces an
output whose first character (the last of the reversed buffer) is a
slash. -/
theorem clean_keeps_relative (p : List Char) :
    (∀ out dotdot, out.getLast? ≠ some '/' →
        (cleanLoop false p out dotdot).getLast? ≠ some '/')
    ∧ (∀ out dotdot, out.getLast? ≠ some '/' →
        (cleanDot false p out dotdot).getLast? ≠ some '/')
    ∧ (∀ out dotdot, out.getLast? ≠ some '/' →
        (cleanElem false p out dotdot).getLast? ≠ some '/') := by
  refine ⟨?_, ?_, ?_⟩
  · intro out dotdot hout
    rcases p with _ | ⟨c, rest⟩
    · exact hout
    rw [cleanLoop]
    by_cases hc : c = '/'
    · rw [if_pos hc]
      exact (clean_keeps_relative rest).1 out dotdot hout
    rw [if_neg hc]
    by_cases hd : c = '.'
    · rw [if_pos hd]
      exact (clean_keeps_relative rest).2.1 out dotdot hout
    · rw [if_neg hd]
      exact (clean_keeps_relative rest).2.2 (c :: sepOut false out) dotdot
        (sepOut_ne_last out hout c hc)
  · intro out dotdot hout
    rcases p with _ | ⟨c, rest⟩
    · rw [cleanDot]
      exact hout
    rw [cleanDot]
    by_cases hc : c = '/'
    · rw [if_pos hc]
      exact (clean_keeps_relative rest).1 out dotdot hout
    rw [if_neg hc]
    by_cases hd : c = '.'
    · rw [if_pos hd]
      split
      · exact (clean_keeps_relative rest).1 _ _ (dotdotStep_getLast out dotdot hout)
      · refine (clean_keeps_relative rest).2.2 _ dotdot ?_
        rcases hso : sepOut false out with _ | ⟨d, r2⟩
        · simp
        · rw [cons_getLast '.' ('.' :: d :: r2) (by simp)]
          rw [cons_getLast '.' (d :: r2) (by simp)]
          rw [← hso]
          exact sepOut_getLast out hout
    · rw [if_neg hd]
      refine (clean_keeps_relative rest).2.2 _ dotdot ?_
      rcases hso : sepOut false out with _ | ⟨d, r2⟩
      · simp [hd]
      · rw [cons_getLast c ('.' :: d :: r2) (by simp)]
        rw [cons_getLast '.' (d :: r2) (by simp)]
        rw [← hso]
        exact sepOut_getLast out hout
  · intro out dotdot hout
    rcases p with _ | ⟨c, rest⟩
    · rw [cleanElem]
      exact hout
    rw [cleanElem]
    by_cases hc : c = '/'
    · rw [if_pos hc]
      exact (clean_keeps_relative rest).1 out dotdot hout
    · rw [if_neg hc]
      refine (clean_keeps_relative rest).2.2 (c :: out) dotdot ?_
      rcases out with _ | ⟨d, r2⟩
      · simp [hc]
      · rw [cons_getLast c (d :: r2) (by simp)]
        exact hout
termination_by p.length
decreasing_by all_goals simp

/-- `path.Clean` never turns a relative path into an absolute one. -/
theorem clean_not_abs (p : Str) (h : ¬ (isAbs p = true)) : ¬ (isAbs (clean p) = true) := by
  rcases p with _ | ⟨c, rest⟩
  · intro hcl
    simp [clean, isAbs] at hcl
  · have hc : c ≠ '/' := by
      intro hy
      subst hy
      simp [isAbs] at h
    rw [clean.eq_def]
    dsimp only
    rw [if_neg hc]
    split
    · intro hcl
      simp [isAbs] at hcl
    · rename_i hne
      have hlast : (cleanLoop false (c :: rest) [] 0).getLast? ≠ some '/' :=
        (clean_keeps_relative (c :: rest)).1 [] 0 (by simp)
      intro hcl
      unfold isAbs at hcl
      rw [List.head?_reverse] at hcl
      exact hlast (by simpa using hcl)

/-- Claim C8: `AddConffile` rejects the empty string, every relative path,
and every path cleaning to the root, each with an error and no mutation;
an accepted path is stored in lexically cleaned form, and duplicates are
permitted. -/
theorem addConffile_spec :
    (∀ t, AddConffile t [] = (t, some GoErr.errMsg))
    ∧ (∀ t p, ¬ (isAbs p = true) → AddConffile t p = (t, some GoErr.errMsg))
    ∧ (∀ t p, clean p = "/".data → AddConffile t p = (t, some GoErr.errMsg))
    ∧ (∀ t p, isAbs (clean p) = true → clean p ≠ "/".data →
        AddConffile t p = ({ t with conffiles := t.conffiles ++ [clean p] }, none))
    ∧ (∀ t p, isAbs (clean p) = true → clean p ≠ "/".data →
        (AddConffile (AddConffile t p).1 p).1.conffiles = t.conffiles ++ [clean p, clean p]
        ∧ (AddConffile (AddConffile t p).1 p).2 = none) := by
  have hacc : ∀ t p, isAbs (clean p) = true → clean p ≠ "/".data →
      AddConffile t p = ({ t with conffiles := t.conffiles ++ [clean p] }, none) := by
    intro t p h1 h2
    unfold AddConffile
    rw [if_neg (by rw [h1]; simp), if_neg h2]
  refine ⟨?_, ?_, ?_, hacc, ?_⟩
  · intro t
    unfold AddConffile
    rw [if_pos (by decide)]
  · intro t p h
    have h2 := clean_not_abs p h
    have h3 : isAbs (clean p) = false := by
      rcases hb : isAbs (clean p) with _ | _
      · rfl
      · exact absurd hb h2
    unfold AddConffile
    rw [if_pos (by rw [h3]; rfl)]
  · intro t p h
    unfold AddConffile
    rw [h]
    rw [if_neg (by decide), if_pos rfl]
  · intro t p h1 h2
    rw [hacc t p h1 h2]
    dsimp only
    rw [hacc _ p h1 h2]
    refine ⟨?_, rfl⟩
    dsimp only
    rw [List.append_assoc]
    rfl

/-- Witness for `addConffile_spec` at concrete inputs. -/
theorem addConffile_spec_witness :
    AddConffile New ("etc/x".data) = (New, some GoErr.errMsg)
    ∧ AddConffile New ("/x/..".data) = (New, some GoErr.errMsg)
    ∧ AddConffile New ("/etc//foo/../y.conf".data)
        = ({ New with conffiles := ["/etc/y.conf".data] }, none)
    ∧ (AddConffile (AddConffile New ("/a".data)).1 ("/a".data)).1.conffiles
        = ["/a".data, "/a".data] := by
  refine ⟨?_, ?_, ?_, ?_⟩
  · exact addConffile_spec.2.1 New _ (by decide)
  · exact addConffile_spec.2.2.1 New _ (by decide)
  · rw [addConffile_spec.2.2.2.1 New ("/etc//foo/../y.conf".data) (by decide) (by decide)]
    decide
  · rw [(addConffile_spec.2.2.2.2 New ("/a".data) (by decide) (by decide)).1]
    decide

/-! ## Slice aliasing model for `Conffiles` (claim C9) -/

/-- A heap of string arrays; an array id is its index. -/
abbrev Mem : Type := List (List Str)

/-- Read the array with the given id (empty when unallocated). -/
def memRead (m : Mem) (id : Nat) : List Str := List.getD m id []

/-- Overwrite one element of the array with the given id. -/
def memWrite (m : Mem) (id i : Nat) (v : Str) : Mem :=
  List.set m id ((List.getD m id []).set i v)

/-- `make([]string, n)` followed by `copy`: allocate a fresh array holding
`v`, returning the new heap and the fresh id. -/
def allocArray (m : Mem) (v : List Str) : Mem × Nat := (m ++ [v], List.length m)

/-- `Conffiles` at the heap level: allocate a fresh array and copy the
stored conffile array into it. -/
def conffilesAlloc (m : Mem) (storedId : Nat) : Mem × Nat :=
  allocArray m (memRead m storedId)

/-- Claim C9: `Conffiles` returns a fresh copy — element-wise equal to the
stored list at call time, and writing through the returned slice leaves
the stored list unchanged (the returned array id is distinct from the
stored one). -/
theorem conffiles_fresh_copy (t : T) (m : Mem) (cid : Nat)
    (hcid : cid < List.length m) (hstored : memRead m cid = t.conffiles) :
    Conffiles t = t.conffiles
    ∧ memRead (conffilesAlloc m cid).1 (conffilesAlloc m cid).2 = Conffiles t
    ∧ ∀ i v, memRead (memWrite (conffilesAlloc m cid).1 (conffilesAlloc m cid).2 i v) cid
        = t.conffiles := by
  refine ⟨rfl, ?_, ?_⟩
  · show List.getD (m ++ [memRead m cid]) (List.length m) [] = t.conffiles
    rw [List.getD_eq_getElem?_getD]
    rw [List.getElem?_append_right (Nat.le_refl _)]
    simp [hstored]
  · intro i v
    show List.getD (List.set _ (List.length m) _) cid [] = t.conffiles
    rw [List.getD_eq_getElem?_getD]
    rw [List.getElem?_set_ne (by omega)]
    show (m ++ [memRead m cid])[cid]?.getD [] = t.conffiles
    rw [List.getElem?_append]
    rw [if_pos hcid]
    rw [← List.getD_eq_getElem?_getD]
    exact hstored

/-- Witness for `conffiles_fresh_copy` on a concrete heap. -/
theorem conffiles_fresh_copy_witness :
    memRead (conffilesAlloc [["/a".data]] 0).1 (conffilesAlloc [["/a".data]] 0).2
      = Conffiles { New with conffiles := ["/a".data] }
    ∧ memRead (memWrite (conffilesAlloc [["/a".data]] 0).1
        (conffilesAlloc [["/a".data]] 0).2 0 ("/b".data)) 0 = ["/a".data] := by
  have h := conffiles_fresh_copy { New with conffiles := ["/a".data] }
    [["/a".data]] 0 (by decide) (by decide)
  exact ⟨h.2.1, h.2.2 0 ("/b".data)⟩

/-- The data sub-archive entries of the claim C2 analysis: two regular
entries with the same canonical path. -/
def dupEntry (content : Str) : TarEntry :=
  { header := { name := "./foo".data, typeflag := tarTypeReg, mode := 0o644,
                size := Int.ofNat content.length, linkname := [],
                uname := archiveOwner, gname := archiveOwner, modTime := 0 },
    data := some content }

/-- Claim C2 (code bug): two data entries canonicalizing to the same path
do NOT abort the read.  The duplicate check looks up the bare canonical
`name` while entries are stored under `"/" + name`, so it never fires: the
second entry silently overwrites the first and the read succeeds. -/
theorem readData_duplicate_not_detected :
    readDataArchive New (.sub [dupEntry ("A".data), dupEntry ("B".data)])
      = .ok { New with files :=
          [("/foo".data, { header := (dupEntry ("B".data)).header,
                           data := some ("B".data) })] } := by
  rfl

/-- A field map (as an iteration sequence) with two non-mandatory
fields. -/
def c4FieldsA : List (Str × Str) :=
  [(ControlPackage, "p".data), (ControlVersion, "1".data), (ControlArch, "all".data),
   (ControlMaintainer, "m".data), (ControlDesc, "d".data),
   (ControlHomepage, "h".data), (ControlDep, "q".data)]

/-- The same field map iterated in a different order. -/
def c4FieldsB : List (Str × Str) :=
  [(ControlPackage, "p".data), (ControlVersion, "1".data), (ControlArch, "all".data),
   (ControlMaintainer, "m".data), (ControlDesc, "d".data),
   (ControlDep, "q".data), (ControlHomepage, "h".data)]

/-- Claim C4 counterexample: the remaining (non-mandatory) fields are
emitted in Go map iteration order, which is randomized; two iteration
orders of the same field map yield different control-file bytes. -/
theorem control_serialization_not_deterministic :
    c4FieldsA.Perm c4FieldsB
    ∧ (c4FieldsA.map Prod.fst).Nodup
    ∧ addControlText c4FieldsA ≠ addControlText c4FieldsB := by
  refine ⟨by decide, by decide, by decide⟩

/-- Claim C4 (amended): the five mandatory fields are written first, in
their fixed order, each as a `Name: value` line, and this prefix is
independent of the map iteration order; the remaining fields follow as
one line each in iteration order, so only their multiset of lines is
determined — two serializations of the same package need not produce
identical bytes. -/
theorem control_serialization_amended (f1 f2 : List (Str × Str))
    (hperm : f1.Perm f2) (hnd : (f1.map Prod.fst).Nodup) :
    mandatoryText f1 mandatoryFields = mandatoryText f2 mandatoryFields
    ∧ (remainingFields f1).Perm (remainingFields f2)
    ∧ addControlText f1 = (mandatoryText f1 mandatoryFields).map
        (fun m => m ++ joinLines ((remainingFields f1).map (fun kv => fieldLine kv.1 kv.2))) := by
  refine ⟨?_, ?_, ?_⟩
  · have hgen : ∀ ms : List Str, mandatoryText f1 ms = mandatoryText f2 ms := by
      intro ms
      induction ms with
      | nil => rfl
      | cons m rest ih =>
        rw [mandatoryText, mandatoryText]
        rw [← lookup_eq_of_perm m hperm hnd]
        rw [ih]
    exact hgen mandatoryFields
  · exact hperm.filter _
  · unfold addControlText
    rcases mandatoryText f1 mandatoryFields with e | m
    · rfl
    · rfl

/-- Witness for `control_serialization_amended` at the counterexample
maps. -/
theorem control_serialization_amended_witness :
    mandatoryText c4FieldsA mandatoryFields = mandatoryText c4FieldsB mandatoryFields
    ∧ (remainingFields c4FieldsA).Perm (remainingFields c4FieldsB)
    ∧ addControlText c4FieldsA = (mandatoryText c4FieldsA mandatoryFields).map
        (fun m => m ++ joinLines ((remainingFields c4FieldsA).map
          (fun kv => fieldLine kv.1 kv.2))) :=
  control_serialization_amended c4FieldsA c4FieldsB (by decide) (by decide)

theorem AddField_files (t : T) (n c : Str) : (AddField t n c).1.files = t.files := by
  unfold AddField
  split
  · rfl
  · dsimp only
    split
    · rfl
    · split
      · rfl
      · rfl

theorem AddConffile_files (t : T) (p : Str) : (AddConffile t p).1.files = t.files := by
  unfold AddConffile
  dsimp only
  split
  · rfl
  · split
    · rfl
    · rfl

theorem AddScript_files (t : T) (n : Str) (r : Option Str) :
    (AddScript t n r).1.files = t.files := by
  unfold AddScript
  rcases r with _ | c
  · rfl
  · dsimp only
    split
    · rfl
    · split
      · rfl
      · rfl

theorem readControlLine_files (t : T) (l : Str) : (readControlLine t l).1.files = t.files := by
  unfold readControlLine
  split
  · exact AddField_files t _ _
  · rfl

theorem readControlLines_files :
    ∀ (ls : List Str) (t t1 : T), readControlLines t ls = .ok t1 → t1.files = t.files := by
  intro ls
  induction ls with
  | nil =>
    intro t t1 h
    rw [readControlLines] at h
    injection h with h
    rw [← h]
  | cons l ls ih =>
    intro t t1 h
    rw [readControlLines] at h
    rcases hrl : readControlLine t l with ⟨t2, err⟩
    rw [hrl] at h
    rcases err with _ | e
    · have h2 := ih t2 t1 h
      have h3 := readControlLine_files t l
      rw [hrl] at h3
      rw [h2, h3]
    · cases h

theorem readControl_files (t t1 : T) (content : Str) (h : readControl t content = .ok t1) :
    t1.files = t.files := readControlLines_files _ t t1 h

theorem readConffileLines_files :
    ∀ (ls : List Str) (t t1 : T), readConffileLines t ls = .ok t1 → t1.files = t.files := by
  intro ls
  induction ls with
  | nil =>
    intro t t1 h
    rw [readConffileLines] at h
    injection h with h
    rw [← h]
  | cons l ls ih =>
    intro t t1 h
    rw [readConffileLines] at h
    split at h
    · exact ih t t1 h
    · rcases hrl : AddConffile t l with ⟨t2, err⟩
      rw [hrl] at h
      rcases err with _ | e
      · have h2 := ih t2 t1 h
        have h3 := AddConffile_files t l
        rw [hrl] at h3
        rw [h2, h3]
      · cases h

theorem readConffiles_files (t t1 : T) (content : Str)
    (h : readConffiles t content = .ok t1) : t1.files = t.files := by
  unfold readConffiles at h
  rcases hrl : readConffileLines t (lines content) with e | t2
  · rw [hrl] at h
    cases h
  · rw [hrl] at h
    injection h with h
    rw [← h]
    exact readConffileLines_files _ t t2 hrl

theorem readControlEntries_files :
    ∀ (es : List TarEntry) (t : T) (cr cf : Bool) (t1 : T),
      readControlEntries t cr cf es = .ok t1 → t1.files = t.files := by
  intro es
  induction es with
  | nil =>
    intro t cr cf t1 h
    rw [readControlEntries] at h
    split at h
    · cases h
    · injection h with h
      rw [← h]
  | cons e rest ih =>
    intro t cr cf t1 h
    rw [readControlEntries] at h
    by_cases hreg : (!isRegType e.header.typeflag) = true
    · rw [if_pos hreg] at h
      exact ih t cr cf t1 h
    · rw [if_neg hreg] at h
      dsimp only at h
      by_cases hc : clean (unslash e.header.name) = controlName
      · rw [if_pos hc] at h
        by_cases hcr : cr = true
        · rw [if_pos hcr] at h
          cases h
        · rw [if_neg hcr] at h
          rcases hrc : readControl t (e.data.getD []) with e2 | t2
          · rw [hrc] at h
            cases h
          · rw [hrc] at h
            rw [ih t2 true cf t1 h]
            exact readControl_files t t2 _ hrc
      · rw [if_neg hc] at h
        by_cases hcn : clean (unslash e.header.name) = confName
        · rw [if_pos hcn] at h
          by_cases hcf : cf = true
          · rw [if_pos hcf] at h
            cases h
          · rw [if_neg hcf] at h
            rcases hrc : readConffiles t (e.data.getD []) with e2 | t2
            · rw [hrc] at h
              cases h
            · rw [hrc] at h
              rw [ih t2 cr true t1 h]
              exact readConffiles_files t t2 _ hrc
        · rw [if_neg hcn] at h
          rcases hrs : AddScript t (clean (unslash e.header.name)) (some (e.data.getD []))
            with ⟨t2, err⟩
          rw [hrs] at h
          have h3 := AddScript_files t (clean (unslash e.header.name)) (some (e.data.getD []))
          rw [hrs] at h3
          rcases err with _ | e2
          · rw [ih t2 cr cf t1 h]
            exact h3
          · rcases e2 with _ | _ | _
            · cases h
            · cases h
            · exact ih t cr cf t1 h

theorem readControlArchive_files (t t1 : T) (c : OuterContent)
    (h : readControlArchive t c = .ok t1) : t1.files = t.files := by
  rcases c with s | es
  · cases h
  · exact readControlEntries_files es t false false t1 h

theorem readTarEntries_no_control :
    ∀ (es : List OuterEntry) (t : T) (dr : Bool),
      (∀ e ∈ es, isRegType e.header.typeflag = true →
        unslash e.header.name ≠ controlArchiveName) →
      ∃ err, readTarEntries t false dr es = .error err := by
  intro es
  induction es with
  | nil =>
    intro t dr _
    exact ⟨GoErr.errMsg, rfl⟩
  | cons e rest ih =>
    intro t dr h
    rw [readTarEntries]
    rcases hreg : isRegType e.header.typeflag with _ | _
    · rw [if_pos (by simp [hreg])]
      exact ih t dr (fun e2 he2 => h e2 (List.mem_cons_of_mem e he2))
    · rw [if_neg (by simp [hreg])]
      have hname := h e (List.mem_cons_self e rest) hreg
      rw [if_neg hname]
      by_cases hdata : unslash e.header.name = dataArchiveName
      · rw [if_pos hdata]
        rcases dr with _ | _
        · rw [if_neg (by simp)]
          rcases hrd : readDataArchive t e.content with err | t2
          · exact ⟨GoErr.errMsg, rfl⟩
          · exact ih t2 true (fun e2 he2 => h e2 (List.mem_cons_of_mem e he2))
        · rw [if_pos rfl]
          exact ⟨GoErr.errMsg, rfl⟩
      · rw [if_neg hdata]
        exact ih t dr (fun e2 he2 => h e2 (List.mem_cons_of_mem e he2))

theorem readTarEntries_no_data_files :
    ∀ (es : List OuterEntry) (t : T) (cr dr : Bool) (r : T),
      readTarEntries t cr dr es = .ok r →
      (∀ e ∈ es, isRegType e.header.typeflag = true →
        unslash e.header.name ≠ dataArchiveName) →
      r.files = t.files := by
  intro es
  induction es with
  | nil =>
    intro t cr dr r h _
    rw [readTarEntries] at h
    split at h
    · cases h
    · injection h with h
      rw [← h]
  | cons e rest ih =>
    intro t cr dr r h hnd
    rw [readTarEntries] at h
    by_cases hreg : (!isRegType e.header.typeflag) = true
    · rw [if_pos hreg] at h
      exact ih t cr dr r h (fun e2 he2 => hnd e2 (List.mem_cons_of_mem e he2))
    · rw [if_neg hreg] at h
      have hregt : isRegType e.header.typeflag = true := by
        rcases hx : isRegType e.header.typeflag with _ | _
        · rw [hx] at hreg
          exact absurd rfl hreg
        · rfl
      by_cases hc : unslash e.header.name = controlArchiveName
      · rw [if_pos hc] at h
        by_cases hcr : cr = true
        · rw [if_pos hcr] at h
          cases h
        · rw [if_neg hcr] at h
          rcases hrc : readControlArchive t e.content with e2 | t2
          · rw [hrc] at h
            cases h
          · rw [hrc] at h
            rw [ih t2 true dr r h (fun e2 he2 => hnd e2 (List.mem_cons_of_mem e he2))]
            exact readControlArchive_files t t2 _ hrc
      · rw [if_neg hc] at h
        have hd := hnd e (List.mem_cons_self e rest) hregt
        rw [if_neg hd] at h
        exact ih t cr dr r h (fun e2 he2 => hnd e2 (List.mem_cons_of_mem e he2))

/-- Regular outer entry named as the control sub-archive. -/
def ctrlMatch (e : OuterEntry) : Bool :=
  isRegType e.header.typeflag && (unslash e.header.name == controlArchiveName)

/-- Regular outer entry named as the data sub-archive. -/
def dataMatch (e : OuterEntry) : Bool :=
  isRegType e.header.typeflag && (unslash e.header.name == dataArchiveName)

theorem readTarEntries_dup_control :
    ∀ (es : List OuterEntry) (t : T) (cr dr : Bool),
      2 ≤ (if cr then 1 else 0) + es.countP ctrlMatch →
      ∃ err, readTarEntries t cr dr es = .error err := by
  intro es
  induction es with
  | nil =>
    intro t cr dr hcount
    rw [List.countP_nil] at hcount
    split at hcount <;> omega
  | cons e rest ih =>
    intro t cr dr hcount
    rw [readTarEntries]
    rcases hreg : isRegType e.header.typeflag with _ | _
    · have hm : ctrlMatch e = false := by
        unfold ctrlMatch
        rw [hreg]
        rfl
      rw [List.countP_cons, hm] at hcount
      rw [if_pos (by simp [hreg])]
      exact ih t cr dr (by simpa using hcount)
    · rw [if_neg (by simp [hreg])]
      by_cases hc : unslash e.header.name = controlArchiveName
      · have hm : ctrlMatch e = true := by
          unfold ctrlMatch
          rw [hreg, hc]
          simp
        rw [List.countP_cons, hm] at hcount
        rw [if_pos hc]
        by_cases hcr : cr = true
        · rw [if_pos hcr]
          exact ⟨GoErr.errMsg, rfl⟩
        · rw [if_neg hcr]
          rcases hrc : readControlArchive t e.content with e2 | t2
          · exact ⟨GoErr.errMsg, rfl⟩
          · apply ih t2 true dr
            have hcrf : cr = false := by
              rcases cr with _ | _
              · rfl
              · exact absurd rfl hcr
            rw [hcrf] at hcount
            have e1 : (if (true = true) then (1 : Nat) else 0) = 1 := rfl
            have e0 : (if (false = true) then (1 : Nat) else 0) = 0 := rfl
            rw [e0, e1] at hcount
            rw [e1]
            omega
      · have hm : ctrlMatch e = false := by
          unfold ctrlMatch
          rw [hreg]
          simp [hc]
        rw [List.countP_cons, hm] at hcount
        rw [if_neg hc]
        by_cases hd : unslash e.header.name = dataArchiveName
        · rw [if_pos hd]
          by_cases hdr : dr = true
          · rw [if_pos hdr]
            exact ⟨GoErr.errMsg, rfl⟩
          · rw [if_neg hdr]
            rcases hrd : readDataArchive t e.content with e2 | t2
            · exact ⟨GoErr.errMsg, rfl⟩
            · exact ih t2 cr true (by simpa using hcount)
        · rw [if_neg hd]
          exact ih t cr dr (by simpa using hcount)

theorem readTarEntries_dup_data :
    ∀ (es : List OuterEntry) (t : T) (cr dr : Bool),
      2 ≤ (if dr then 1 else 0) + es.countP dataMatch →
      ∃ err, readTarEntries t cr dr es = .error err := by
  intro es
  induction es with
  | nil =>
    intro t cr dr hcount
    rw [List.countP_nil] at hcount
    split at hcount <;> omega
  | cons e rest ih =>
    intro t cr dr hcount
    rw [readTarEntries]
    rcases hreg : isRegType e.header.typeflag with _ | _
    · have hm : dataMatch e = false := by
        unfold dataMatch
        rw [hreg]
        rfl
      rw [List.countP_cons, hm] at hcount
      rw [if_pos (by simp [hreg])]
      exact ih t cr dr (by simpa using hcount)
    · rw [if_neg (by simp [hreg])]
      by_cases hc : unslash e.header.name = controlArchiveName
      · have hm : dataMatch e = false := by
          unfold dataMatch
          rw [hc]
          have : controlArchiveName ≠ dataArchiveName := by decide
          simp [this]
        rw [List.countP_cons, hm] at hcount
        rw [if_pos hc]
        by_cases hcr : cr = true
        · rw [if_pos hcr]
          exact ⟨GoErr.errMsg, rfl⟩
        · rw [if_neg hcr]
          rcases hrc : readControlArchive t e.content with e2 | t2
          · exact ⟨GoErr.errMsg, rfl⟩
          · exact ih t2 true dr (by simpa using hcount)
      · rw [if_neg hc]
        by_cases hd : unslash e.header.name = dataArchiveName
        · have hm : dataMatch e = true := by
            unfold dataMatch
            rw [hreg, hd]
            simp
          rw [List.countP_cons, hm] at hcount
          rw [if_pos hd]
          by_cases hdr : dr = true
          · rw [if_pos hdr]
            exact ⟨GoErr.errMsg, rfl⟩
          · rw [if_neg hdr]
            rcases hrd : readDataArchive t e.content with e2 | t2
            · exact ⟨GoErr.errMsg, rfl⟩
            · apply ih t2 cr true
              have hdrf : dr = false := by
                rcases dr with _ | _
                · rfl
                · exact absurd rfl hdr
              rw [hdrf] at hcount
              have e1 : (if (true = true) then (1 : Nat) else 0) = 1 := rfl
              have e0 : (if (false = true) then (1 : Nat) else 0) = 0 := rfl
              rw [e0, e1] at hcount
              rw [e1]
              omega
        · have hm : dataMatch e = false := by
            unfold dataMatch
            rw [hreg]
            simp [hd]
          rw [List.countP_cons, hm] at hcount
          rw [if_neg hd]
          exact ih t cr dr (by simpa using hcount)

/-- Claim C6: when reading the outer container, the absence of a control
sub-archive entry is a hard failure; a successful read of a container
without a data sub-archive entry yields an empty file tree; and a second
entry matching either sub-archive name is a hard failure. -/
theorem readTar_container_rules :
    (∀ es, (∀ e ∈ es, isRegType e.header.typeflag = true →
        unslash e.header.name ≠ controlArchiveName) →
      ∃ err, readTar es = .error err)
    ∧ (∀ es r, readTar es = .ok r →
        (∀ e ∈ es, isRegType e.header.typeflag = true →
          unslash e.header.name ≠ dataArchiveName) →
        r.files = [])
    ∧ (∀ es, 2 ≤ es.countP ctrlMatch → ∃ err, readTar es = .error err)
    ∧ (∀ es, 2 ≤ es.countP dataMatch → ∃ err, readTar es = .error err) := by
  refine ⟨?_, ?_, ?_, ?_⟩
  · intro es h
    exact readTarEntries_no_control es New false h
  · intro es r hok hnd
    exact readTarEntries_no_data_files es New false false r hok hnd
  · intro es h
    exact readTarEntries_dup_control es New false false (by simpa using h)
  · intro es h
    exact readTarEntries_dup_data es New false false (by simpa using h)

/-- A minimal well-formed control sub-archive entry (empty control
file). -/
def wCtrlEntry : OuterEntry :=
  { header := fileHeader (slash controlArchiveName) 0 0,
    content := .sub [{ header := fileHeader (slash controlName) 0 0, data := some [] }] }

/-- An empty data sub-archive entry. -/
def wDataEntry : OuterEntry :=
  { header := fileHeader (slash dataArchiveName) 0 0, content := .sub [] }

/-- Witness for `readTar_container_rules` at concrete containers. -/
theorem readTar_container_rules_witness :
    (∃ err, readTar [] = .error err)
    ∧ New.files = []
    ∧ (∃ err, readTar [wCtrlEntry, wCtrlEntry] = .error err)
    ∧ (∃ err, readTar [wDataEntry, wDataEntry] = .error err) := by
  refine ⟨?_, ?_, ?_, ?_⟩
  · exact readTar_container_rules.1 [] (by intro e he; cases he)
  · exact readTar_container_rules.2.1 [wCtrlEntry] New (by rfl) (by decide)
  · exact readTar_container_rules.2.2.1 [wCtrlEntry, wCtrlEntry] (by decide)
  · exact readTar_container_rules.2.2.2 [wDataEntry, wDataEntry] (by decide)

theorem clean_ne_nil (p : Str) : clean p ≠ [] := by
  have hgen : ∀ out : List Char, (if out.isEmpty then ('.' :: []) else out.reverse) ≠ [] := by
    intro out
    split
    · simp
    · rename_i hnn
      intro hy
      rw [List.reverse_eq_nil_iff] at hy
      rw [hy] at hnn
      simp at hnn
  rw [clean.eq_def]
  rcases p with _ | ⟨c, rest⟩
  · simp
  · dsimp only
    exact hgen _

/-- `addDir` only appends directory entries to the file map; fields,
conffiles and scripts are untouched. -/
theorem addDir_frame :
    ∀ (n : Nat) (dir : Str) (t : T), (clean dir).length ≤ n →
      (addDir t dir).1.fields = t.fields
      ∧ (addDir t dir).1.conffiles = t.conffiles
      ∧ (addDir t dir).1.scripts = t.scripts
      ∧ ∃ new, (addDir t dir).1.files = t.files ++ new
          ∧ ∀ kf ∈ new, kf.2.header.typeflag = tarTypeDir := by
  intro n
  induction n with
  | zero =>
    intro dir t hlen
    have h1 := clean_ne_nil dir
    have h2 : 1 ≤ (clean dir).length := by
      rcases hc : clean dir with _ | _
      · exact absurd hc h1
      · simp
    omega
  | succ n ih =>
    intro dir t hlen
    rw [addDir]
    split
    · exact ⟨rfl, rfl, rfl, [], (List.append_nil _).symm, by intro kf hkf; cases hkf⟩
    · split
      · exact ⟨rfl, rfl, rfl, [], (List.append_nil _).symm, by intro kf hkf; cases hkf⟩
      · rename_i h1 h2
        rw [AddFile]
        have hne2 : (splitPath (clean dir)).2 ≠ [] := by
          intro hy
          rw [hy] at h2
          simp at h2
        have hne1 : (splitPath (clean dir)).1 ≠ [] := by
          intro hy
          rw [hy] at h1
          simp at h1
        have hmeas : (clean (splitPath (clean dir)).1).length ≤ n := by
          have hlt := splitPath_fst_length_lt (clean dir) hne2
          have hcl := clean_length_le (splitPath (clean dir)).1 hne1
          omega
        rcases ih (splitPath (clean dir)).1 t hmeas with ⟨hf, hc, hs, new1, hfiles, hdirs⟩
        split
        · -- addDir returned nil or os.ErrExist: run addFileFinish
          have htf : (directoryHeader (splitPath (clean dir)).2 0).typeflag = tarTypeDir := rfl
          unfold addFileFinish
          dsimp only
          rw [if_neg (by rw [htf]; decide)]
          rw [if_neg (by rw [htf]; decide)]
          rw [if_pos htf]
          unfold finishInsert
          dsimp only
          split
          · exact ⟨hf, hc, hs, new1, hfiles, hdirs⟩
          · rename_i hnotmem
            have hlook : List.lookup
                (joinPath (splitPath (clean dir)).1
                  (directoryHeader (splitPath (clean dir)).2 0).name ++ ['/'])
                (addDir t (splitPath (clean dir)).1).1.files = none := by
              rcases hmm : List.lookup
                  (joinPath (splitPath (clean dir)).1
                    (directoryHeader (splitPath (clean dir)).2 0).name ++ ['/'])
                  (addDir t (splitPath (clean dir)).1).1.files with _ | v
              · rfl
              · rw [hmm] at hnotmem
                simp at hnotmem
            refine ⟨hf, hc, hs,
              new1 ++ [(joinPath (splitPath (clean dir)).1
                  (directoryHeader (splitPath (clean dir)).2 0).name ++ ['/'],
                { header := { directoryHeader (splitPath (clean dir)).2 0 with
                    name := joinPath (splitPath (clean dir)).1
                      (directoryHeader (splitPath (clean dir)).2 0).name ++ ['/'] },
                  data := none })], ?_, ?_⟩
            · show mapSet (addDir t (splitPath (clean dir)).1).1.files _ _ = _
              rw [mapSet_not_mem _ _ _ hlook, hfiles, List.append_assoc]
            · intro kf hkf
              rcases List.mem_append.mp hkf with hin | hin
              · exact hdirs kf hin
              · rcases List.mem_singleton.mp hin with rfl
                rfl
        · exact ⟨hf, hc, hs, new1, hfiles, hdirs⟩

theorem backtrack_min (dotdot : Nat) :
    ∀ l : List Char, dotdot < l.length → dotdot ≤ (backtrack dotdot l).length := by
  intro l
  induction l with
  | nil => intro h; simp at h
  | cons c rest ih =>
    intro h
    simp only [List.length_cons] at h
    rw [backtrack]
    split
    · rename_i hcond
      simp only [Bool.and_eq_true, decide_eq_true_eq] at hcond
      exact ih hcond.1
    · omega

theorem cons_keeps_sep (c : Char) (l : List Char) (hne : l ≠ [])
    (hlast : l.getLast? = some '/') :
    (c :: l) ≠ [] ∧ (c :: l).getLast? = some '/' := by
  refine ⟨by simp, ?_⟩
  rw [cons_getLast c l hne]
  exact hlast

theorem sepOut_rooted (out : List Char) (hne : out ≠ []) (hlast : out.getLast? = some '/') :
    sepOut true out ≠ [] ∧ (sepOut true out).getLast? = some '/' := by
  unfold sepOut
  split
  · exact cons_keeps_sep '/' out hne hlast
  · exact ⟨hne, hlast⟩

theorem dotdotStep_rooted (out : List Char) (dotdot : Nat) (hd : 1 ≤ dotdot)
    (hne : out ≠ []) (hlast : out.getLast? = some '/') :
    (dotdotStep true out dotdot).1 ≠ [] ∧ (dotdotStep true out dotdot).1.getLast? = some '/' := by
  unfold dotdotStep
  by_cases hgt : out.length > dotdot
  · rw [if_pos hgt]
    dsimp only
    have hlen : dotdot ≤ (backtrack dotdot out).length := backtrack_min dotdot out hgt
    have hbne : backtrack dotdot out ≠ [] := by
      intro hy
      rw [hy] at hlen
      simp only [List.length_nil] at hlen
      omega
    refine ⟨hbne, ?_⟩
    rw [getLast_of_suffix (backtrack_suffix dotdot out) hbne]
    exact hlast
  · rw [if_neg hgt]
    rw [if_neg (by decide)]
    exact ⟨hne, hlast⟩

theorem dotdotStep_rooted_snd (out : List Char) (dotdot : Nat) :
    (dotdotStep true out dotdot).2 = dotdot := by
  unfold dotdotStep
  split
  · rfl
  · rw [if_neg (by decide)]

/-- On a rooted input, the main loop of `clean` keeps the output buffer
nonempty with the root separator as its first character (the last of the
reversed buffer). -/
theorem clean_keeps_rooted (p : List Char) :
    (∀ out dotdot, 1 ≤ dotdot → out ≠ [] → out.getLast? = some '/' →
        cleanLoop true p out dotdot ≠ [] ∧ (cleanLoop true p out dotdot).getLast? = some '/')
    ∧ (∀ out dotdot, 1 ≤ dotdot → out ≠ [] → out.getLast? = some '/' →
        cleanDot true p out dotdot ≠ [] ∧ (cleanDot true p out dotdot).getLast? = some '/')
    ∧ (∀ out dotdot, 1 ≤ dotdot → out ≠ [] → out.getLast? = some '/' →
        cleanElem true p out dotdot ≠ [] ∧ (cleanElem true p out dotdot).getLast? = some '/') := by
  refine ⟨?_, ?_, ?_⟩
  · intro out dotdot hd hne hlast
    rcases p with _ | ⟨c, rest⟩
    · exact ⟨hne, hlast⟩
    rw [cleanLoop]
    by_cases hc : c = '/'
    · rw [if_pos hc]
      exact (clean_keeps_rooted rest).1 out dotdot hd hne hlast
    rw [if_neg hc]
    by_cases hdot : c = '.'
    · rw [if_pos hdot]
      exact (clean_keeps_rooted rest).2.1 out dotdot hd hne hlast
    · rw [if_neg hdot]
      obtain ⟨h1, h2⟩ := sepOut_rooted out hne hlast
      exact (clean_keeps_rooted rest).2.2 (c :: sepOut true out) dotdot hd
        (cons_keeps_sep c _ h1 h2).1 (cons_keeps_sep c _ h1 h2).2
  · intro out dotdot hd hne hlast
    rcases p with _ | ⟨c, rest⟩
    · rw [cleanDot]
      exact ⟨hne, hlast⟩
    rw [cleanDot]
    by_cases hc : c = '/'
    · rw [if_pos hc]
      exact (clean_keeps_rooted rest).1 out dotdot hd hne hlast
    rw [if_neg hc]
    by_cases hdot : c = '.'
    · rw [if_pos hdot]
      split
      · obtain ⟨h1, h2⟩ := dotdotStep_rooted out dotdot hd hne hlast
        refine (clean_keeps_rooted rest).1 _ _ ?_ h1 h2
        rw [dotdotStep_rooted_snd]
        exact hd
      · obtain ⟨h1, h2⟩ := sepOut_rooted out hne hlast
        obtain ⟨h3, h4⟩ := cons_keeps_sep '.' _ h1 h2
        exact (clean_keeps_rooted rest).2.2 _ dotdot hd
          (cons_keeps_sep '.' _ h3 h4).1 (cons_keeps_sep '.' _ h3 h4).2
    · rw [if_neg hdot]
      obtain ⟨h1, h2⟩ := sepOut_rooted out hne hlast
      obtain ⟨h3, h4⟩ := cons_keeps_sep '.' _ h1 h2
      exact (clean_keeps_rooted rest).2.2 _ dotdot hd
        (cons_keeps_sep c _ h3 h4).1 (cons_keeps_sep c _ h3 h4).2
  · intro out dotdot hd hne hlast
    rcases p with _ | ⟨c, rest⟩
    · rw [cleanElem]
      exact ⟨hne, hlast⟩
    rw [cleanElem]
    by_cases hc : c = '/'
    · rw [if_pos hc]
      exact (clean_keeps_rooted rest).1 out dotdot hd hne hlast
    · rw [if_neg hc]
      exact (clean_keeps_rooted rest).2.2 (c :: out) dotdot hd
        (cons_keeps_sep c out hne hlast).1 (cons_keeps_sep c out hne hlast).2
termination_by p.length
decreasing_by all_goals simp

/-- `path.Clean` keeps an absolute path absolute. -/
theorem clean_keeps_abs (p : Str) (h : isAbs p = true) : isAbs (clean p) = true := by
  rcases p with _ | ⟨c, rest⟩
  · exact absurd h (by decide)
  · have hc : c = '/' := by
      unfold isAbs at h
      simpa using h
    subst hc
    rw [clean.eq_def]
    dsimp only
    rw [if_pos rfl]
    obtain ⟨hne, hlast⟩ :=
      (clean_keeps_rooted rest).1 ('/' :: []) 1 (by omega) (by simp) rfl
    rw [if_neg (by simpa using hne)]
    unfold isAbs
    rw [List.head?_reverse, hlast]
    rfl

theorem takeWhile_slash_lt (l : List Char) (h : '/' ∈ l) :
    (l.takeWhile (fun c => c ≠ '/')).length < l.length := by
  induction l with
  | nil => cases h
  | cons c rest ih =>
    by_cases hc : c = '/'
    · rw [List.takeWhile_cons_of_neg (by simp [hc])]
      simp
    · rw [List.takeWhile_cons_of_pos (by simp [hc])]
      simp only [List.length_cons]
      have hm : '/' ∈ rest := by
        rcases List.mem_cons.mp h with he | hm
        · exact absurd he.symm hc
        · exact hm
      exact Nat.succ_lt_succ (ih hm)

/-- `path.Split` of an absolute path has a nonempty, absolute directory
part. -/
theorem splitPath_abs (p : Str) (h : isAbs p = true) :
    (splitPath p).1 ≠ [] ∧ isAbs (splitPath p).1 = true := by
  rcases hp : p with _ | ⟨c, rest⟩
  · rw [hp] at h
    exact absurd h (by decide)
  · have hc : c = '/' := by
      rw [hp] at h
      unfold isAbs at h
      simpa using h
    subst hc
    rw [← hp]
    have hm : '/' ∈ p.reverse := by
      rw [List.mem_reverse, hp]
      exact List.mem_cons_self '/' rest
    have hlt := takeWhile_slash_lt p.reverse hm
    rw [List.length_reverse] at hlt
    have hk : 1 ≤ p.length - ((p.reverse.takeWhile (fun c => c ≠ '/')).reverse).length := by
      rw [List.length_reverse]
      omega
    show p.take (p.length - ((p.reverse.takeWhile (fun c => c ≠ '/')).reverse).length) ≠ []
      ∧ isAbs (p.take (p.length - ((p.reverse.takeWhile (fun c => c ≠ '/')).reverse).length))
        = true
    rcases hkk : p.length - ((p.reverse.takeWhile (fun c => c ≠ '/')).reverse).length
       with _ | k2
    · omega
    · rw [hp, List.take_succ_cons]
      exact ⟨by simp, rfl⟩

/-- `addDir` on a directory that is absolute after cleaning never fails
with anything but `os.ErrExist`: every recursive level re-splits an
absolute path, and the final insertion of a directory header needs no
reader. -/
theorem addDir_abs :
    ∀ (n : Nat) (dir : Str) (t : T), (clean dir).length ≤ n → isAbs (clean dir) = true →
      (addDir t dir).2 = none ∨ (addDir t dir).2 = some GoErr.errExist := by
  intro n
  induction n with
  | zero =>
    intro dir t hlen _
    have h1 := clean_ne_nil dir
    have h2 : 1 ≤ (clean dir).length := by
      rcases hc : clean dir with _ | _
      · exact absurd hc h1
      · simp
    omega
  | succ n ih =>
    intro dir t hlen habs
    obtain ⟨hfne, hfabs⟩ := splitPath_abs (clean dir) habs
    rw [addDir]
    rw [dif_neg (by simpa using hfne)]
    by_cases h2 : (splitPath (clean dir)).2.isEmpty = true
    · rw [dif_pos h2]
      exact Or.inr rfl
    · rw [dif_neg h2]
      rw [AddFile]
      have hne2 : (splitPath (clean dir)).2 ≠ [] := by simpa using h2
      have hmeas : (clean (splitPath (clean dir)).1).length ≤ n := by
        have hlt := splitPath_fst_length_lt (clean dir) hne2
        have hcl := clean_length_le (splitPath (clean dir)).1 hfne
        omega
      have hih := ih (splitPath (clean dir)).1 t hmeas (clean_keeps_abs _ hfabs)
      rw [if_pos hih]
      have htf : (directoryHeader (splitPath (clean dir)).2 0).typeflag = tarTypeDir := rfl
      unfold addFileFinish
      dsimp only
      rw [if_neg (by rw [htf]; decide)]
      rw [if_neg (by rw [htf]; decide)]
      rw [if_pos htf]
      unfold finishInsert
      dsimp only
      split
      · exact Or.inr rfl
      · exact Or.inl rfl

/-- The key under which `AddFile` stores (and checks) the new entry:
the joined full path, with a trailing slash for directories. -/
def addFileKey (dir : Str) (hdr : Header) : Str :=
  if hdr.typeflag = tarTypeDir then joinPath dir hdr.name ++ ['/'] else joinPath dir hdr.name

/-- Claim C3 (amended): for an `AddFile` call that passes argument
validation — a non-nil file info, a reader present when the entry is
regular or a symlink, and a directory that is absolute after cleaning —
whose resulting full path is already a key of the file map, the call
returns `os.ErrExist` and neither adds nor modifies the entry at that
path — fields, conffiles and scripts are untouched, and every
pre-existing file entry is preserved — but missing ancestor directories
have been materialized before the existence check and remain after the
error. -/
theorem addFile_existing_path (t : T) (dir : Str) (hdr : Header) (r : Option Str)
    (v0 : FileData)
    (habs : isAbs (clean dir) = true)
    (hr : isRegType hdr.typeflag = true ∨ hdr.typeflag = tarTypeSymlink →
      ∃ content, r = some content)
    (hkey : List.lookup (addFileKey dir hdr) t.files = some v0) :
    ∃ t1, AddFile t dir (some hdr) r = (t1, some GoErr.errExist)
      ∧ t1.fields = t.fields ∧ t1.conffiles = t.conffiles ∧ t1.scripts = t.scripts
      ∧ (∀ k v, List.lookup k t.files = some v → List.lookup k t1.files = some v)
      ∧ ∃ new, t1.files = t.files ++ new
          ∧ ∀ kf ∈ new, kf.2.header.typeflag = tarTypeDir := by
  rcases addDir_frame (clean dir).length dir t (Nat.le_refl _)
    with ⟨hf, hc, hs, new1, hfiles, hdirs⟩
  have hpres : ∀ k v, List.lookup k t.files = some v →
      List.lookup k (addDir t dir).1.files = some v := by
    intro k v hv
    rw [hfiles, List.lookup_append, hv]
    rfl
  have hdirok := addDir_abs (clean dir).length dir t (Nat.le_refl _) habs
  rw [AddFile]
  rw [if_pos hdirok]
  unfold addFileFinish
  dsimp only
  by_cases hreg : isRegType hdr.typeflag = true
  · rw [if_pos hreg]
    have hdirflag : ¬ hdr.typeflag = tarTypeDir := by
      intro hy
      rw [hy] at hreg
      exact absurd hreg (by decide)
    have hkey2 : addFileKey dir hdr = joinPath dir hdr.name := by
      unfold addFileKey
      rw [if_neg hdirflag]
    obtain ⟨content, hcontent⟩ := hr (Or.inl hreg)
    subst hcontent
    unfold finishInsert
    dsimp only
    rw [if_pos]
    · exact ⟨_, rfl, hf, hc, hs, hpres, new1, hfiles, hdirs⟩
    · rw [hpres _ _ (hkey2 ▸ hkey)]
      rfl
  · rw [if_neg hreg]
    by_cases hsym : hdr.typeflag = tarTypeSymlink
    · rw [if_pos hsym]
      have hdirflag : ¬ hdr.typeflag = tarTypeDir := by
        rw [hsym]
        decide
      have hkey2 : addFileKey dir hdr = joinPath dir hdr.name := by
        unfold addFileKey
        rw [if_neg hdirflag]
      obtain ⟨content, hcontent⟩ := hr (Or.inr hsym)
      subst hcontent
      unfold finishInsert
      dsimp only
      rw [if_pos]
      · exact ⟨_, rfl, hf, hc, hs, hpres, new1, hfiles, hdirs⟩
      · rw [hpres _ _ (hkey2 ▸ hkey)]
        rfl
    · rw [if_neg hsym]
      by_cases hdirf : hdr.typeflag = tarTypeDir
      · rw [if_pos hdirf]
        have hkey2 : addFileKey dir hdr = joinPath dir hdr.name ++ ['/'] := by
          unfold addFileKey
          rw [if_pos hdirf]
        unfold finishInsert
        dsimp only
        rw [if_pos]
        · exact ⟨_, rfl, hf, hc, hs, hpres, new1, hfiles, hdirs⟩
        · rw [hpres _ _ (hkey2 ▸ hkey)]
          rfl
      · rw [if_neg hdirf]
        have hkey2 : addFileKey dir hdr = joinPath dir hdr.name := by
          unfold addFileKey
          rw [if_neg hdirf]
        unfold finishInsert
        dsimp only
        rw [if_pos]
        · exact ⟨_, rfl, hf, hc, hs, hpres, new1, hfiles, hdirs⟩
        · rw [hpres _ _ (hkey2 ▸ hkey)]
          rfl

/-- The pre-existing regular file at `/a/b` for the claim C3 analysis. -/
def c3v0 : FileData :=
  { header := { name := "/a/b".data, typeflag := tarTypeReg, mode := 0o644, size := 1,
                linkname := [], uname := [], gname := [], modTime := 0 },
    data := some ("x".data) }

/-- A package whose file map holds `/a/b` but not the ancestor `/a/`. -/
def c3t : T := { New with files := [("/a/b".data, c3v0)] }

/-- The header `AddFile` receives for a new regular file `b` in `/a`. -/
def c3hdr : Header :=
  { name := "b".data, typeflag := tarTypeReg, mode := 0o644, size := 1,
    linkname := [], uname := [], gname := [], modTime := 0 }

/-- The package after the failed `AddFile`: the ancestor directory `/a/`
has been materialized. -/
def c3tPlus : T :=
  { c3t with files := c3t.files ++
      [("/a/".data,
        { header := { name := "/a/".data, typeflag := tarTypeDir, mode := 0o755, size := 0,
                      linkname := [], uname := archiveOwner, gname := archiveOwner,
                      modTime := 0 },
          data := none })] }

theorem c3_addDir_root : addDir c3t ("/".data) = (c3t, some GoErr.errExist) := by
  rw [addDir]
  rw [dif_neg (by decide)]
  rw [dif_pos (by decide)]

theorem c3_addFile_dir :
    AddFile c3t ("/".data) (some (directoryHeader ("a".data) 0)) none = (c3tPlus, none) := by
  rw [AddFile]
  dsimp only
  rw [c3_addDir_root]
  rw [if_pos (Or.inr rfl)]
  decide

theorem c3_addDir_a : addDir c3t ("/a".data) = (c3tPlus, none) := by
  rw [addDir]
  rw [dif_neg (by decide), dif_neg (by decide)]
  rw [(by decide : (splitPath (clean ("/a".data))).1 = "/".data)]
  rw [(by decide : (splitPath (clean ("/a".data))).2 = "a".data)]
  exact c3_addFile_dir

/-- Claim C3 counterexample: `AddFile` on an already-present full path
returns `os.ErrExist` but does NOT leave the package unchanged — the
missing ancestor directory `/a/` is materialized before the existence
check. -/
theorem addFile_existing_mutates :
    AddFile c3t ("/a".data) (some c3hdr) (some ("x".data)) = (c3tPlus, some GoErr.errExist)
    ∧ c3tPlus ≠ c3t := by
  constructor
  · rw [AddFile]
    dsimp only
    rw [c3_addDir_a]
    rw [if_pos (Or.inl rfl)]
    decide
  · decide

/-- Witness for `addFile_existing_path` at the counterexample package. -/
theorem addFile_existing_path_witness :
    ∃ t1, AddFile c3t ("/a".data) (some c3hdr) (some ("x".data)) = (t1, some GoErr.errExist)
      ∧ t1.fields = c3t.fields ∧ t1.conffiles = c3t.conffiles ∧ t1.scripts = c3t.scripts
      ∧ (∀ k v, List.lookup k c3t.files = some v → List.lookup k t1.files = some v)
      ∧ ∃ new, t1.files = c3t.files ++ new
          ∧ ∀ kf ∈ new, kf.2.header.typeflag = tarTypeDir :=
  addFile_existing_path c3t ("/a".data) c3hdr (some ("x".data)) c3v0 (by decide)
    (fun _ => ⟨"x".data, rfl⟩) (by decide)

/-! ## Round-trip development: generic helpers -/

theorem mem_of_lookup {α : Type} (k : Str) (v : α) :
    ∀ l : List (Str × α), List.lookup k l = some v → (k, v) ∈ l := by
  intro l
  induction l with
  | nil => intro h; cases h
  | cons kv rest ih =>
    intro h
    rw [List.lookup_cons] at h
    rcases hbeq : (k == kv.1) with _ | _
    · rw [hbeq] at h
      dsimp only at h
      exact List.mem_cons_of_mem kv (ih h)
    · rw [hbeq] at h
      dsimp only at h
      have hk : k = kv.1 := by simpa using hbeq
      have hv : v = kv.2 := by cases h; rfl
      rw [hk, hv]
      exact List.mem_cons_self kv rest

theorem lookup_of_mem_nodup {α : Type} (k : Str) (v : α) :
    ∀ l : List (Str × α), (k, v) ∈ l → (l.map Prod.fst).Nodup →
      List.lookup k l = some v := by
  intro l
  induction l with
  | nil => intro h; cases h
  | cons kv rest ih =>
    intro hmem hnd
    simp only [List.map_cons, List.nodup_cons] at hnd
    rw [List.lookup_cons]
    rcases List.mem_cons.mp hmem with heq | htail
    · rw [← heq]
      dsimp only
      rw [(by simp : (k == k) = true)]
    · have hk : ¬ k = kv.1 := by
        intro e
        exact hnd.1 (e ▸ (List.mem_map_of_mem Prod.fst htail))
      rw [(by simp [hk] : (k == kv.1) = false)]
      dsimp only
      exact ih htail hnd.2

theorem lookup_filter_key {α : Type} (k : Str) (q : Str → Bool) (hq : q k = true) :
    ∀ l : List (Str × α),
      List.lookup k (l.filter (fun kv => q kv.1)) = List.lookup k l := by
  intro l
  induction l with
  | nil => rfl
  | cons kv rest ih =>
    by_cases hk : k = kv.1
    · rw [List.filter_cons_of_pos (by show q kv.1 = true; rw [← hk]; exact hq)]
      rw [List.lookup_cons, List.lookup_cons, (by simp [hk] : (k == kv.1) = true)]
    · rcases hkeep : q kv.1 with _ | _
      · rw [List.filter_cons_of_neg (by show ¬ q kv.1 = true; rw [hkeep]; exact Bool.false_ne_true)]
        rw [ih, List.lookup_cons, (by simp [hk] : (k == kv.1) = false)]
      · rw [List.filter_cons_of_pos (by show q kv.1 = true; rw [hkeep])]
        rw [List.lookup_cons, List.lookup_cons, (by simp [hk] : (k == kv.1) = false)]
        dsimp only
        exact ih

theorem lookup_map_pair {α : Type} (k : Str) (g : Str → α) :
    ∀ ks : List Str, k ∈ ks →
      List.lookup k (ks.map (fun m => (m, g m))) = some (g k) := by
  intro ks
  induction ks with
  | nil => intro h; cases h
  | cons m rest ih =>
    intro hmem
    rw [List.map_cons, List.lookup_cons]
    by_cases hk : k = m
    · rw [(by simp [hk] : (k == m) = true)]
      dsimp only
      rw [hk]
    · rw [(by simp [hk] : (k == m) = false)]
      dsimp only
      exact ih (by rcases List.mem_cons.mp hmem with h | h; exact absurd h hk; exact h)

theorem lookup_map_pair_none {α : Type} (k : Str) (g : Str → α) :
    ∀ ks : List Str, k ∉ ks →
      List.lookup k (ks.map (fun m => (m, g m))) = none := by
  intro ks
  induction ks with
  | nil => intro _; rfl
  | cons m rest ih =>
    intro hmem
    rw [List.map_cons, List.lookup_cons]
    have hk : ¬ k = m := fun e => hmem (e ▸ List.mem_cons_self m rest)
    rw [(by simp [hk] : (k == m) = false)]
    dsimp only
    exact ih (fun h => hmem (List.mem_cons_of_mem m h))

theorem dropCR_eq_self (l : Str) (h : ¬ l.getLast? = some '\r') : dropCR l = l := by
  unfold dropCR
  rw [if_neg (by simpa using h)]

theorem joinLines_append (a b : List Str) :
    joinLines (a ++ b) = joinLines a ++ joinLines b := by
  induction a with
  | nil => rfl
  | cons l rest ih =>
    rw [List.cons_append]
    show l ++ joinLines (rest ++ b) = (l ++ joinLines rest) ++ joinLines b
    rw [ih, List.append_assoc]

theorem linesAux_newline (acc rest : Str) :
    linesAux acc ('\n' :: rest) = dropCR acc.reverse :: linesAux [] rest := rfl

theorem linesAux_cons_ne (acc : Str) (c : Char) (rest : Str) (h : ¬ c = '\n') :
    linesAux acc (c :: rest) = linesAux (c :: acc) rest := by
  rw [linesAux.eq_def]
  split
  · rename_i heq
    exact absurd heq (List.cons_ne_nil c rest)
  · rename_i r2 heq
    injection heq with h1 h2
    exact absurd h1 h
  · rename_i c2 r2 heq
    injection heq with h1 h2
    rw [h1, h2]

theorem linesAux_line (l : Str) (hnl : ∀ c ∈ l, ¬ c = '\n') :
    ∀ (acc s : Str),
      linesAux acc (l ++ '\n' :: s) = dropCR (acc.reverse ++ l) :: linesAux [] s := by
  induction l with
  | nil =>
    intro acc s
    rw [List.nil_append, linesAux_newline, List.append_nil]
  | cons c l2 ih =>
    intro acc s
    rw [List.cons_append, linesAux_cons_ne acc c _ (hnl c (List.mem_cons_self c l2))]
    rw [ih (fun d hd => hnl d (List.mem_cons_of_mem c hd)) (c :: acc) s]
    rw [List.reverse_cons, List.append_assoc, List.singleton_append]

theorem lines_of_joined :
    ∀ L : List Str,
      (∀ l ∈ L, (∀ c ∈ l, ¬ c = '\n') ∧ ¬ l.getLast? = some '\r') →
      lines (joinLines (L.map (fun l => l ++ '\n' :: []))) = L := by
  intro L
  induction L with
  | nil => intro _; rfl
  | cons l rest ih =>
    intro h
    rw [List.map_cons]
    show lines ((l ++ '\n' :: []) ++ joinLines (rest.map (fun l => l ++ '\n' :: []))) = l :: rest
    rw [List.append_assoc, List.singleton_append]
    unfold lines
    rw [linesAux_line l (h l (List.mem_cons_self l rest)).1 [] _]
    rw [List.reverse_nil, List.nil_append,
        dropCR_eq_self l (h l (List.mem_cons_self l rest)).2]
    exact congrArg (l :: ·) (ih (fun m hm => h m (List.mem_cons_of_mem l hm)))

theorem trimSpace_space_cons (v : Str) : trimSpace (' ' :: v) = trimSpace v := by
  unfold trimSpace
  rw [List.dropWhile_cons_of_pos (by decide)]

theorem trimSpace_no_trailing (v : Str) (h : trimSpace v = v) (c : Char)
    (hc : goIsSpace c = true) : ¬ v.getLast? = some c := by
  intro hlast
  have hne : v ≠ [] := by
    intro e
    rw [e] at hlast
    cases hlast
  rcases hu : v.dropWhile goIsSpace with _ | ⟨d, u2⟩
  · have : trimSpace v = [] := by
      unfold trimSpace
      rw [hu]
      rfl
    exact hne (by rw [← h, this])
  · have hsuf : (v.dropWhile goIsSpace).IsSuffix v := List.dropWhile_suffix goIsSpace
    have hlast2 : (v.dropWhile goIsSpace).getLast? = some c := by
      rw [getLast_of_suffix hsuf (by rw [hu]; exact List.cons_ne_nil d u2)]
      exact hlast
    have hhead : (v.dropWhile goIsSpace).reverse.head? = some c := by
      rw [List.head?_reverse]
      exact hlast2
    rcases hrev : (v.dropWhile goIsSpace).reverse with _ | ⟨e, w⟩
    · rw [hrev] at hhead
      cases hhead
    · have hec : e = c := by
        rw [hrev] at hhead
        cases hhead
        rfl
      have hlen1 : (trimSpace v).length ≤ w.length := by
        unfold trimSpace
        rw [hrev, hec, List.dropWhile_cons_of_pos hc, List.length_reverse]
        exact (List.dropWhile_sublist goIsSpace).length_le
      have hlen2 : w.length + 1 = (v.dropWhile goIsSpace).length := by
        rw [← List.length_reverse (v.dropWhile goIsSpace), hrev]
        rfl
      have hlen3 : (v.dropWhile goIsSpace).length ≤ v.length :=
        (List.dropWhile_sublist goIsSpace).length_le
      rw [h] at hlen1
      omega

/-! ## Round-trip development: control file -/

/-- One line of the control file without its newline terminator. -/
def lineOf (kv : Str × Str) : Str := kv.1 ++ ':' :: ' ' :: kv.2

/-- The mandatory pairs of a field map, in the fixed mandatory order. -/
def mpairs (fields : List (Str × Str)) : List (Str × Str) :=
  mandatoryFields.map (fun m => (m, (List.lookup m fields).getD []))

/-- A field pair that survives the write/read cycle: an allowed name, a
trimmed value, and no embedded newline. -/
def validField (kv : Str × Str) : Bool :=
  allowedFieldNames kv.1 && (trimSpace kv.2 == kv.2) && !(kv.2.contains '\n')

/-- The exact control file text produced on a successful `addControlText`. -/
def ctrlText (fields : List (Str × Str)) : Str :=
  joinLines ((mpairs fields ++ remainingFields fields).map (fun kv => fieldLine kv.1 kv.2))

theorem contains_iff_mem {α : Type} [BEq α] [LawfulBEq α] (l : List α) (a : α) :
    l.contains a = true ↔ a ∈ l := by
  show l.elem a = true ↔ a ∈ l
  exact List.elem_iff

theorem fieldLine_eq (k v : Str) : fieldLine k v = lineOf (k, v) ++ '\n' :: [] := by
  unfold fieldLine lineOf
  simp [List.append_assoc]

theorem mandatoryText_present (fields : List (Str × Str)) :
    ∀ ms : List Str, (∀ m ∈ ms, (List.lookup m fields).isSome = true) →
      mandatoryText fields ms =
        .ok (joinLines (ms.map (fun m => fieldLine m ((List.lookup m fields).getD [])))) := by
  intro ms
  induction ms with
  | nil => intro _; rfl
  | cons m rest ih =>
    intro h
    rw [mandatoryText]
    rcases hm : List.lookup m fields with _ | v
    · have hs := h m (List.mem_cons_self m rest)
      rw [hm] at hs
      cases hs
    · rw [ih (fun x hx => h x (List.mem_cons_of_mem m hx))]
      show Except.ok (fieldLine m v ++ _) = _
      rw [List.map_cons, hm]
      rfl

theorem splitColon (rest : Str) :
    ∀ k : Str, (∀ c ∈ k, ¬ c = ':') →
      (k ++ ':' :: rest).takeWhile (fun c => c ≠ ':') = k ∧
      (k ++ ':' :: rest).dropWhile (fun c => c ≠ ':') = ':' :: rest := by
  intro k
  induction k with
  | nil =>
    intro _
    constructor
    · rw [List.nil_append, List.takeWhile_cons_of_neg (by simp)]
    · rw [List.nil_append, List.dropWhile_cons_of_neg (by simp)]
  | cons c k2 ih =>
    intro h
    have hc : ¬ c = ':' := h c (List.mem_cons_self c k2)
    have ih2 := ih (fun d hd => h d (List.mem_cons_of_mem c hd))
    constructor
    · rw [List.cons_append, List.takeWhile_cons_of_pos (by simpa using hc), ih2.1]
    · rw [List.cons_append, List.dropWhile_cons_of_pos (by simpa using hc), ih2.2]

theorem alphaHyphen_ne (c : Char) (h : isAlphaHyphen c = true) : ¬ c = ':' ∧ ¬ c = '\n' := by
  constructor
  · intro e
    rw [e] at h
    exact absurd h (by decide)
  · intro e
    rw [e] at h
    exact absurd h (by decide)

theorem validField_line (kv : Str × Str) (h : validField kv = true) :
    (∀ c ∈ lineOf kv, ¬ c = '\n') ∧ ¬ (lineOf kv).getLast? = some '\r' := by
  rcases kv with ⟨k, v⟩
  unfold validField at h
  simp only [Bool.and_eq_true] at h
  obtain ⟨⟨hk, htrim⟩, hnl⟩ := h
  have htrim2 : trimSpace v = v := eq_of_beq htrim
  have hvnl : ¬ '\n' ∈ v := by
    intro hm
    rw [(contains_iff_mem v '\n').mpr hm] at hnl
    cases hnl
  have hkall : ∀ c ∈ k, isAlphaHyphen c = true := by
    unfold allowedFieldNames at hk
    simp only [Bool.and_eq_true, List.all_eq_true] at hk
    exact fun c hc => hk.2 c hc
  constructor
  · intro c hc
    unfold lineOf at hc
    rcases List.mem_append.mp hc with hck | hcr
    · exact (alphaHyphen_ne c (hkall c hck)).2
    · rcases List.mem_cons.mp hcr with he | hcr2
      · rw [he]; decide
      · rcases List.mem_cons.mp hcr2 with he | hcv
        · rw [he]; decide
        · intro e
          rw [e] at hcv
          exact hvnl hcv
  · show ¬ (k ++ ':' :: ' ' :: v).getLast? = some '\r'
    rcases hv : v with _ | ⟨c0, v2⟩
    · rw [List.getLast?_append_of_ne_nil k (by decide : (':' :: ' ' :: ([] : List Char)) ≠ [])]
      decide
    · rw [List.getLast?_append_of_ne_nil k (by simp : (':' :: ' ' :: (c0 :: v2)) ≠ [])]
      rw [cons_getLast ':' _ (by simp), cons_getLast ' ' _ (by simp)]
      rw [← hv]
      exact trimSpace_no_trailing v htrim2 '\r' (by decide)

theorem readControlLine_ok (t : T) (k v : Str) (h : validField (k, v) = true)
    (hlk : List.lookup k t.fields = none) :
    readControlLine t (lineOf (k, v)) = ({ t with fields := t.fields ++ [(k, v)] }, none) := by
  unfold validField at h
  simp only [Bool.and_eq_true] at h
  obtain ⟨⟨hk, htrim⟩, hnl⟩ := h
  have hkcolon : ∀ c ∈ k, ¬ c = ':' := by
    intro c hc
    unfold allowedFieldNames at hk
    simp only [Bool.and_eq_true, List.all_eq_true] at hk
    exact (alphaHyphen_ne c (hk.2 c hc)).1
  have hsplit := splitColon (' ' :: v) k hkcolon
  unfold readControlLine lineOf
  rw [if_pos ((contains_iff_mem _ ':').mpr
        (List.mem_append_right k (List.mem_cons_self ':' (' ' :: v))))]
  rw [hsplit.1, hsplit.2, List.tail_cons]
  unfold AddField
  rw [if_neg (by rw [hk]; decide)]
  dsimp only
  have hts : trimSpace (' ' :: v) = v := by
    rw [trimSpace_space_cons]
    exact eq_of_beq htrim
  rw [hts]
  rw [if_neg (by simpa using hnl)]
  rw [hlk]
  rw [if_neg (by decide)]
  rw [mapSet_not_mem t.fields k v hlk]

theorem readControlLines_fold :
    ∀ (L : List (Str × Str)) (t0 : T),
      (∀ kv ∈ L, validField kv = true) →
      (∀ kv ∈ L, List.lookup kv.1 t0.fields = none) →
      (L.map Prod.fst).Nodup →
      readControlLines t0 (L.map lineOf) = .ok { t0 with fields := t0.fields ++ L } := by
  intro L
  induction L with
  | nil =>
    intro t0 _ _ _
    rw [List.map_nil, readControlLines, List.append_nil]
  | cons kv rest ih =>
    intro t0 hvf hlk hnd
    rw [List.map_cons, readControlLines]
    have hline : readControlLine t0 (lineOf kv) = ({ t0 with fields := t0.fields ++ [kv] }, none) := by
      obtain ⟨k, v⟩ := kv
      exact readControlLine_ok t0 k v (hvf (k, v) (List.mem_cons_self _ rest))
        (hlk (k, v) (List.mem_cons_self _ rest))
    rw [hline]
    show readControlLines { t0 with fields := t0.fields ++ [kv] } (rest.map lineOf) = _
    simp only [List.map_cons, List.nodup_cons] at hnd
    rw [ih { t0 with fields := t0.fields ++ [kv] }
          (fun x hx => hvf x (List.mem_cons_of_mem kv hx))
          (fun x hx => by
            rw [lookup_eq_none_iff]
            rw [List.map_append]
            intro hmem
            rcases List.mem_append.mp hmem with h1 | h2
            · exact absurd h1
                ((lookup_eq_none_iff x.1 t0.fields).mp (hlk x (List.mem_cons_of_mem kv hx)))
            · simp only [List.map_cons, List.map_nil, List.mem_singleton] at h2
              exact hnd.1 (h2 ▸ List.mem_map_of_mem Prod.fst hx)
          )
          hnd.2]
    rw [List.append_assoc, List.singleton_append]

theorem remainingFields_keys_nodup (fields : List (Str × Str))
    (hnd : (fields.map Prod.fst).Nodup) :
    ((remainingFields fields).map Prod.fst).Nodup :=
  List.Nodup.sublist ((List.filter_sublist fields).map Prod.fst) hnd

theorem remainingFields_not_mandatory (fields : List (Str × Str)) (m : Str)
    (hm : m ∈ mandatoryFields) : ¬ m ∈ (remainingFields fields).map Prod.fst := by
  intro hmem
  rcases List.mem_map.mp hmem with ⟨kv, hkv, hfst⟩
  have hf := List.mem_filter.mp hkv
  rw [hfst] at hf
  rw [(contains_iff_mem mandatoryFields m).mpr hm] at hf
  exact absurd hf.2 (by decide)

theorem remainingFields_mem (fields : List (Str × Str)) (kv : Str × Str)
    (h : kv ∈ remainingFields fields) : kv ∈ fields :=
  (List.mem_filter.mp h).1

theorem mpairs_map_fst (fields : List (Str × Str)) :
    (mpairs fields).map Prod.fst = mandatoryFields := by
  unfold mpairs
  rw [List.map_map]
  show mandatoryFields.map (fun m => m) = mandatoryFields
  exact List.map_id' mandatoryFields

theorem mpairs_mem_fields (fields : List (Str × Str)) (kv : Str × Str)
    (h : kv ∈ mpairs fields)
    (hall : ∀ m ∈ mandatoryFields, (List.lookup m fields).isSome = true) :
    kv ∈ fields := by
  unfold mpairs at h
  rcases List.mem_map.mp h with ⟨m, hm, heq⟩
  rcases hlm : List.lookup m fields with _ | v
  · have hs := hall m hm
    rw [hlm] at hs
    cases hs
  · rw [hlm] at heq
    rw [← heq]
    exact mem_of_lookup m v fields hlm

theorem addControlText_ok (fields : List (Str × Str))
    (hall : ∀ m ∈ mandatoryFields, (List.lookup m fields).isSome = true) :
    addControlText fields = .ok (ctrlText fields) := by
  unfold addControlText
  rw [mandatoryText_present fields mandatoryFields hall]
  unfold ctrlText
  rw [List.map_append, joinLines_append]
  show Except.ok _ = _
  unfold mpairs
  rw [List.map_map]
  rfl

theorem readControl_ctrlText (t0 : T) (fields : List (Str × Str))
    (hall : ∀ m ∈ mandatoryFields, (List.lookup m fields).isSome = true)
    (hvf : ∀ kv ∈ fields, validField kv = true)
    (hnd : (fields.map Prod.fst).Nodup)
    (h0 : t0.fields = []) :
    readControl t0 (ctrlText fields) =
      .ok { t0 with fields := mpairs fields ++ remainingFields fields } := by
  have hvfL : ∀ kv ∈ mpairs fields ++ remainingFields fields, validField kv = true := by
    intro kv hkv
    rcases List.mem_append.mp hkv with h1 | h2
    · exact hvf kv (mpairs_mem_fields fields kv h1 hall)
    · exact hvf kv (remainingFields_mem fields kv h2)
  have hlines : lines (ctrlText fields) =
      (mpairs fields ++ remainingFields fields).map lineOf := by
    unfold ctrlText
    rw [(by
          apply List.map_congr_left
          intro kv _
          exact fieldLine_eq kv.1 kv.2 :
        (mpairs fields ++ remainingFields fields).map (fun kv => fieldLine kv.1 kv.2) =
          (mpairs fields ++ remainingFields fields).map (fun kv => lineOf kv ++ '\n' :: []))]
    rw [(by rw [List.map_map]; rfl :
        (mpairs fields ++ remainingFields fields).map (fun kv => lineOf kv ++ '\n' :: []) =
          ((mpairs fields ++ remainingFields fields).map lineOf).map (fun l => l ++ '\n' :: []))]
    rw [lines_of_joined _ (by
      intro l hl
      rcases List.mem_map.mp hl with ⟨kv, hkv, heq⟩
      rw [← heq]
      exact validField_line kv (hvfL kv hkv))]
  unfold readControl
  rw [hlines]
  rw [readControlLines_fold _ t0 hvfL
        (fun kv _ => by rw [h0]; rfl)
        (by
          rw [List.map_append, mpairs_map_fst]
          refine List.Nodup.append (by decide) (remainingFields_keys_nodup fields hnd) ?_
          intro m hm
          exact remainingFields_not_mandatory fields m hm)]
  rw [h0]
  rfl

/-! ## Round-trip development: field-map lookup, conffiles, scripts -/

theorem lookup_fields_roundtrip (fields : List (Str × Str)) (k : Str)
    (hall : ∀ m ∈ mandatoryFields, (List.lookup m fields).isSome = true) :
    List.lookup k (mpairs fields ++ remainingFields fields) = List.lookup k fields := by
  by_cases hk : k ∈ mandatoryFields
  · rcases hlk : List.lookup k fields with _ | v
    · have hs := hall k hk
      rw [hlk] at hs
      cases hs
    · rw [List.lookup_append]
      unfold mpairs
      rw [lookup_map_pair k _ mandatoryFields hk]
      rw [hlk]
      rfl
  · rw [List.lookup_append]
    unfold mpairs
    rw [lookup_map_pair_none k _ mandatoryFields hk]
    show List.lookup k (remainingFields fields) = _
    have hq : (fun s => !(mandatoryFields.contains s)) k = true := by
      show (!(mandatoryFields.contains k)) = true
      rcases hc : mandatoryFields.contains k with _ | _
      · rfl
      · exact absurd ((contains_iff_mem mandatoryFields k).mp hc) hk
    exact lookup_filter_key k (fun s => !(mandatoryFields.contains s)) hq fields

/-- A conffile path that survives the write/read cycle: absolute, not the
root, already clean, and printable on its own line. -/
def validConf (c : Str) : Bool :=
  isAbs c && !(c == "/".data) && (clean c == c) && !(c.contains '\n')
    && !(c.getLast? == some '\r')

theorem isAbs_ne_nil (c : Str) (h : isAbs c = true) : ¬ c.isEmpty = true := by
  rcases c with _ | ⟨d, r⟩
  · cases h
  · intro e
    cases e

theorem AddConffile_ok (t : T) (c : Str) (h : validConf c = true) :
    AddConffile t c = ({ t with conffiles := t.conffiles ++ [c] }, none) := by
  unfold validConf at h
  simp only [Bool.and_eq_true] at h
  obtain ⟨⟨⟨⟨habs, hroot⟩, hclean⟩, _⟩, _⟩ := h
  have hcl : clean c = c := eq_of_beq hclean
  unfold AddConffile
  dsimp only
  rw [hcl]
  rw [if_neg (by rw [habs]; decide)]
  rw [if_neg (by simpa using hroot)]

theorem readConffileLines_fold :
    ∀ (cs : List Str) (t0 : T), (∀ c ∈ cs, validConf c = true) →
      readConffileLines t0 cs = .ok { t0 with conffiles := t0.conffiles ++ cs } := by
  intro cs
  induction cs with
  | nil =>
    intro t0 _
    rw [readConffileLines, List.append_nil]
  | cons c rest ih =>
    intro t0 h
    have hc := h c (List.mem_cons_self c rest)
    rw [readConffileLines]
    rw [if_neg (isAbs_ne_nil c (by
      unfold validConf at hc
      simp only [Bool.and_eq_true] at hc
      exact hc.1.1.1.1))]
    rw [AddConffile_ok t0 c hc]
    show readConffileLines { t0 with conffiles := t0.conffiles ++ [c] } rest = _
    rw [ih _ (fun x hx => h x (List.mem_cons_of_mem c hx))]
    rw [List.append_assoc, List.singleton_append]

theorem sortStrs_mem (l : List Str) (c : Str) (h : c ∈ sortStrs l) : c ∈ l :=
  (List.perm_insertionSort (fun a b => a ≤ b) l).mem_iff.mp h

theorem sortStrs_idem (l : List Str) : sortStrs (sortStrs l) = sortStrs l :=
  List.Sorted.insertionSort_eq (List.sorted_insertionSort (fun a b => a ≤ b) l)

theorem validConf_line (c : Str) (h : validConf c = true) :
    (∀ d ∈ c, ¬ d = '\n') ∧ ¬ c.getLast? = some '\r' := by
  unfold validConf at h
  simp only [Bool.and_eq_true] at h
  obtain ⟨⟨_, hnl⟩, hcr⟩ := h
  constructor
  · intro d hd e
    rw [e] at hd
    rw [(contains_iff_mem c '\n').mpr hd] at hnl
    cases hnl
  · intro e
    rw [e] at hcr
    exact absurd hcr (by decide)

theorem readConffiles_ok (t0 : T) (cfs : List Str)
    (hv : ∀ c ∈ cfs, validConf c = true) (h0 : t0.conffiles = []) :
    readConffiles t0 (conffilesText cfs) = .ok { t0 with conffiles := sortStrs cfs } := by
  have hvs : ∀ c ∈ sortStrs cfs, validConf c = true :=
    fun c hc => hv c (sortStrs_mem cfs c hc)
  have hlines : lines (conffilesText cfs) = sortStrs cfs := by
    unfold conffilesText
    exact lines_of_joined (sortStrs cfs) (fun l hl => validConf_line l (hvs l hl))
  unfold readConffiles
  rw [hlines]
  rw [readConffileLines_fold (sortStrs cfs) t0 hvs]
  show Except.ok _ = _
  rw [h0, List.nil_append, sortStrs_idem]

/-- The script map entry `AddScript` constructs for content `c`. -/
def scriptData (name content : Str) : FileData :=
  { header := { name := name, typeflag := tarTypeRegA, mode := 0,
                size := Int.ofNat content.length, linkname := [],
                uname := [], gname := [], modTime := 0 },
    data := some content }

/-- A script entry that survives the write/read cycle: an allowed name that
is not one of the two reserved control names and is its own canonical form,
holding exactly the data `AddScript` would store. -/
def validScript (s : Str × FileData) : Bool :=
  allowedScriptNames s.1 && !(s.1 == controlName) && !(s.1 == confName)
    && (clean (unslash (slash s.1)) == s.1)
    && (s.2 == scriptData s.1 (s.2.data.getD []))

theorem AddScript_ok (t : T) (n c : Str)
    (ha : allowedScriptNames n = true) (hc1 : ¬ n = controlName) (hc2 : ¬ n = confName)
    (hlk : List.lookup n t.scripts = none) :
    AddScript t n (some c) = ({ t with scripts := t.scripts ++ [(n, scriptData n c)] }, none) := by
  unfold AddScript
  dsimp only
  rw [if_neg (by simp [hc1, hc2, ha])]
  rw [hlk]
  rw [if_neg (by decide)]
  show ({ t with scripts := mapSet t.scripts n (scriptData n c) }, none) = _
  rw [mapSet_not_mem t.scripts n (scriptData n c) hlk]

theorem addScriptEntry_eq (n : Str) (m : Int) (c : Str) :
    addScriptEntry n (Int.ofNat c.length) m (some c) =
      { header := { name := slash n, typeflag := tarTypeReg, mode := 0o755,
                    size := Int.ofNat c.length, linkname := [],
                    uname := archiveOwner, gname := archiveOwner, modTime := m },
        data := some c } := by
  unfold addScriptEntry addArchiveEntry fileHeader specialHeader
  rw [if_pos (show Int.ofNat (List.length c) ≥ 0 from Int.ofNat_nonneg (List.length c))]

theorem readControlEntries_scripts_fold :
    ∀ (ss : List (Str × FileData)) (t0 : T) (cf : Bool) (m : Int),
      (∀ s ∈ ss, validScript s = true) →
      (∀ s ∈ ss, List.lookup s.1 t0.scripts = none) →
      (ss.map Prod.fst).Nodup →
      readControlEntries t0 true cf
          (ss.map (fun s => addScriptEntry s.1 s.2.header.size m s.2.data)) =
        .ok { t0 with scripts := t0.scripts ++ ss } := by
  intro ss
  induction ss with
  | nil =>
    intro t0 cf m _ _ _
    rw [List.map_nil, readControlEntries, if_neg (by decide), List.append_nil]
  | cons s rest ih =>
    intro t0 cf m hv hlk hnd
    obtain ⟨n, f⟩ := s
    have hs := hv (n, f) (List.mem_cons_self _ rest)
    unfold validScript at hs
    simp only [Bool.and_eq_true] at hs
    obtain ⟨⟨⟨⟨ha, hn1⟩, hn2⟩, hcl⟩, hsd⟩ := hs
    have hf : f = scriptData n (f.data.getD []) := eq_of_beq hsd
    set c := f.data.getD [] with hcdef
    have hcl2 : clean (unslash (slash n)) = n := eq_of_beq hcl
    have hnc1 : ¬ n = controlName := by simpa using hn1
    have hnc2 : ¬ n = confName := by simpa using hn2
    have he : addScriptEntry n f.header.size m f.data =
        { header := { name := slash n, typeflag := tarTypeReg, mode := 0o755,
                      size := Int.ofNat c.length, linkname := [],
                      uname := archiveOwner, gname := archiveOwner, modTime := m },
          data := some c } := by
      conv_lhs => rw [hf]
      exact addScriptEntry_eq n m c
    rw [List.map_cons]
    show readControlEntries t0 true cf
        (addScriptEntry n f.header.size m f.data :: _) = _
    rw [he]
    rw [readControlEntries]
    dsimp only
    rw [if_neg (by decide)]
    rw [hcl2]
    rw [if_neg hnc1, if_neg hnc2]
    simp only [Option.getD_some]
    rw [AddScript_ok t0 n c ha hnc1 hnc2
          (hlk (n, f) (List.mem_cons_self _ rest))]
    show readControlEntries { t0 with scripts := t0.scripts ++ [(n, scriptData n c)] }
        true cf (rest.map (fun s => addScriptEntry s.1 s.2.header.size m s.2.data)) = _
    rw [← hf]
    simp only [List.map_cons, List.nodup_cons] at hnd
    rw [ih _ cf m (fun x hx => hv x (List.mem_cons_of_mem _ hx))
          (fun x hx => by
            rw [lookup_eq_none_iff, List.map_append]
            intro hmem
            rcases List.mem_append.mp hmem with h1 | h2
            · exact absurd h1
                ((lookup_eq_none_iff x.1 t0.scripts).mp (hlk x (List.mem_cons_of_mem _ hx)))
            · simp only [List.map_cons, List.map_nil, List.mem_singleton] at h2
              exact hnd.1 (h2 ▸ List.mem_map_of_mem Prod.fst hx))
          hnd.2]
    rw [List.append_assoc, List.singleton_append]

/-! ## Round-trip development: the control sub-archive -/

/-- The root directory entry both sub-archives start with. -/
def dirRootEntry (m : Int) : TarEntry :=
  { header := directoryHeader ('.' :: '/' :: []) m, data := none }

/-- The control file entry of a successful `fillControlArchive`. -/
def ctrlFileEntry (t : T) (m : Int) : TarEntry :=
  { header := fileHeader (slash controlName) (Int.ofNat (ctrlText t.fields).length) m,
    data := some (ctrlText t.fields) }

/-- The script entries of `fillControlArchive`, in map iteration order. -/
def scriptEntries (t : T) (m : Int) : List TarEntry :=
  t.scripts.map (fun s => addScriptEntry s.1 s.2.header.size m s.2.data)

/-- The package state after reading back the control sub-archive. -/
def tControl (t : T) : T :=
  { fields := mpairs t.fields ++ remainingFields t.fields,
    conffiles := sortStrs t.conffiles, scripts := t.scripts, files := [] }

theorem fileHeader_eq (name : Str) (k : Nat) (m : Int) :
    fileHeader name (Int.ofNat k) m =
      { name := name, typeflag := tarTypeReg, mode := 0o644, size := Int.ofNat k,
        linkname := [], uname := archiveOwner, gname := archiveOwner, modTime := m } := by
  unfold fileHeader specialHeader
  rw [if_pos (show Int.ofNat k ≥ 0 from Int.ofNat_nonneg k)]

theorem directoryHeader_eq (name : Str) (m : Int) :
    directoryHeader name m =
      { name := name, typeflag := tarTypeDir, mode := 0o755, size := 0,
        linkname := [], uname := archiveOwner, gname := archiveOwner, modTime := m } := by
  unfold directoryHeader specialHeader
  rw [if_neg (by decide)]

theorem fillControlArchive_ok (t : T) (m : Int)
    (hall : ∀ x ∈ mandatoryFields, (List.lookup x t.fields).isSome = true) :
    fillControlArchive t m =
      .ok (dirRootEntry m :: ctrlFileEntry t m :: (addConffiles t m ++ scriptEntries t m)) := by
  unfold fillControlArchive addControl
  rw [addControlText_ok t.fields hall]
  rfl

theorem readControlEntries_tail (t : T) (m : Int) (fields1 : List (Str × Str))
    (hvc : ∀ c ∈ t.conffiles, validConf c = true)
    (hvs : ∀ s ∈ t.scripts, validScript s = true)
    (hnds : (t.scripts.map Prod.fst).Nodup) :
    readControlEntries { fields := fields1, conffiles := [], scripts := [], files := [] }
        true false (addConffiles t m ++ scriptEntries t m) =
      .ok { fields := fields1, conffiles := sortStrs t.conffiles,
            scripts := t.scripts, files := [] } := by
  unfold addConffiles
  rcases hB : t.conffiles with _ | ⟨c0, cs⟩
  · rw [if_pos (show (List.isEmpty ([] : List Str)) = true from rfl), List.nil_append]
    unfold scriptEntries
    rw [readControlEntries_scripts_fold t.scripts
          { fields := fields1, conffiles := [], scripts := [], files := [] }
          false m hvs (fun s _ => rfl) hnds]
    rw [List.nil_append]
    rfl
  · rw [if_neg (by simp)]
    rw [List.singleton_append]
    rw [fileHeader_eq]
    rw [readControlEntries]
    dsimp only
    rw [if_neg (by decide)]
    rw [(by decide : clean (unslash (slash confName)) = confName)]
    rw [if_neg (by decide), if_pos rfl, if_neg (by decide)]
    simp only [Option.getD_some]
    rw [readConffiles_ok _ (c0 :: cs) (hB ▸ hvc) rfl]
    show readControlEntries
        { fields := fields1, conffiles := sortStrs (c0 :: cs), scripts := [], files := [] }
        true true (scriptEntries t m) = _
    unfold scriptEntries
    rw [readControlEntries_scripts_fold t.scripts
          { fields := fields1, conffiles := sortStrs (c0 :: cs), scripts := [], files := [] }
          true m hvs (fun s _ => rfl) hnds]
    rw [List.nil_append]

theorem readControlEntries_full (t : T) (m : Int)
    (hall : ∀ x ∈ mandatoryFields, (List.lookup x t.fields).isSome = true)
    (hvf : ∀ kv ∈ t.fields, validField kv = true)
    (hndf : (t.fields.map Prod.fst).Nodup)
    (hvc : ∀ c ∈ t.conffiles, validConf c = true)
    (hvs : ∀ s ∈ t.scripts, validScript s = true)
    (hnds : (t.scripts.map Prod.fst).Nodup) :
    readControlEntries New false false
        (dirRootEntry m :: ctrlFileEntry t m :: (addConffiles t m ++ scriptEntries t m)) =
      .ok (tControl t) := by
  rw [readControlEntries]
  unfold dirRootEntry
  dsimp only
  rw [if_pos (by
    rw [directoryHeader_eq]
    show (!isRegType tarTypeDir) = true
    decide)]
  unfold ctrlFileEntry
  rw [fileHeader_eq]
  rw [readControlEntries]
  dsimp only
  rw [if_neg (by decide)]
  rw [(by decide : clean (unslash (slash controlName)) = controlName)]
  rw [if_pos rfl, if_neg (by decide)]
  simp only [Option.getD_some]
  rw [readControl_ctrlText New t.fields hall hvf hndf rfl]
  show readControlEntries
      { fields := mpairs t.fields ++ remainingFields t.fields,
        conffiles := [], scripts := [], files := [] }
      true false (addConffiles t m ++ scriptEntries t m) = _
  rw [readControlEntries_tail t m _ hvc hvs hnds]
  rfl

/-! ## Round-trip development: the data sub-archive -/

/-- A map key with a trailing separator removed: the shape in which a file
tree key comes back from the data archive. -/
def stripSlash (k : Str) : Str := if k.getLast? == some '/' then k.dropLast else k

/-- A file entry that survives the write/read cycle: the header records its
own key, the canonicalized slashed key is the key modulo a trailing
separator, the canonical name is not one the reader skips, and the payload
is present exactly for regular entries. -/
def validFile (kf : Str × FileData) : Bool :=
  (kf.2.header.name == kf.1)
    && ('/' :: clean (unslash (slash kf.1)) == stripSlash kf.1)
    && !(clean (unslash (slash kf.1)) == ".".data)
    && !(clean (unslash (slash kf.1)) == "..".data)
    && !(("../".data).isPrefixOf (clean (unslash (slash kf.1))))
    && (if isRegType kf.2.header.typeflag then kf.2.data.isSome else kf.2.data == none)

/-- The file-map entry the data reader stores for a written entry. -/
def fileValueOf (kf : Str × FileData) : Str × FileData :=
  (stripSlash kf.1,
    { header := { kf.2.header with name := slash kf.1 }, data := kf.2.data })

/-- The written file entries paired with their keys, in sorted key order. -/
def qOf (t : T) : List (Str × FileData) :=
  (sortStrs (t.files.map Prod.fst)).filterMap
    (fun k => (List.lookup k t.files).map (fun f => (k, f)))

theorem unslash_not_abs (p : Str) : ¬ isAbs (unslash p) = true := by
  obtain ⟨pre, _, _, _, h2⟩ := unslash_decomposition p
  intro habs
  rcases hq : unslash p with _ | ⟨c, r⟩
  · rw [hq] at habs
    cases habs
  · rw [hq] at habs
    have hc : c = '/' := by
      unfold isAbs at habs
      simpa using habs
    rw [hq, hc] at h2
    exact h2 (by simp [List.isPrefixOf])

theorem readDataEntries_fold :
    ∀ (q : List (Str × FileData)) (t0 : T),
      (∀ kf ∈ q, validFile kf = true) →
      (∀ key ∈ t0.files.map Prod.fst, isAbs key = true) →
      (t0.files.map Prod.fst ++ q.map (fun kf => stripSlash kf.1)).Nodup →
      readDataEntries t0 (q.map (fun kf => addArchiveEntry kf.2.header kf.2.data)) =
        .ok { t0 with files := t0.files ++ q.map fileValueOf } := by
  intro q
  induction q with
  | nil =>
    intro t0 _ _ _
    rw [List.map_nil, readDataEntries, List.map_nil, List.append_nil]
  | cons kf rest ih =>
    intro t0 hv habs hnd
    obtain ⟨k, f⟩ := kf
    rw [List.map_cons] at hnd
    have hvf := hv (k, f) (List.mem_cons_self _ rest)
    unfold validFile at hvf
    simp only [Bool.and_eq_true] at hvf
    obtain ⟨⟨⟨⟨⟨hname, hsl⟩, hd1⟩, hd2⟩, hd3⟩, hif⟩ := hvf
    have hname2 : f.header.name = k := eq_of_beq hname
    have hsl2 : '/' :: clean (unslash (slash k)) = stripSlash k := eq_of_beq hsl
    have he : addArchiveEntry f.header f.data =
        { header := { f.header with name := slash k }, data := f.data } := by
      unfold addArchiveEntry
      rw [hname2]
    have hnabs : ¬ isAbs (clean (unslash (slash k))) = true :=
      clean_not_abs (unslash (slash k)) (unslash_not_abs (slash k))
    rw [List.map_cons]
    show readDataEntries t0 (addArchiveEntry f.header f.data :: _) = _
    rw [he, readDataEntries]
    dsimp only
    rw [if_neg (by
      rintro (h | h | h)
      · rw [h] at hd1
        exact absurd hd1 (by decide)
      · rw [h] at hd2
        exact absurd hd2 (by decide)
      · rw [h] at hd3
        exact absurd hd3 (by decide))]
    have hlkn : List.lookup (clean (unslash (slash k))) t0.files = none := by
      rw [lookup_eq_none_iff]
      intro hmem
      exact hnabs (habs _ hmem)
    rw [hlkn]
    rw [if_neg (by decide)]
    have hnotin : ¬ stripSlash k ∈ t0.files.map Prod.fst := by
      intro hmem
      exact (List.disjoint_of_nodup_append hnd) hmem
        (List.mem_cons_self (stripSlash k) (rest.map (fun kf => stripSlash kf.1)))
    have hlks : List.lookup ('/' :: clean (unslash (slash k))) t0.files = none := by
      rw [hsl2, lookup_eq_none_iff]
      exact hnotin
    have hstep : setFileData t0 ('/' :: clean (unslash (slash k)))
        { f.header with name := slash k } (f.data.getD []) =
        { t0 with files := t0.files ++ [fileValueOf (k, f)] } := by
      unfold setFileData fileValueOf
      rcases hreg : isRegType f.header.typeflag with _ | _
      · rw [if_neg Bool.false_ne_true]
        rw [hreg] at hif
        have hfd : f.data = none := eq_of_beq hif
        rw [mapSet_not_mem t0.files _ _ hlks, hsl2]
        dsimp only
        rw [hfd]
      · rw [if_pos rfl]
        rw [hreg] at hif
        rcases hfd : f.data with _ | d
        · rw [hfd] at hif
          cases hif
        · rw [mapSet_not_mem t0.files _ _ hlks, hsl2]
          dsimp only
          rw [Option.getD_some]
    rw [hstep]
    rw [ih { t0 with files := t0.files ++ [fileValueOf (k, f)] }
          (fun x hx => hv x (List.mem_cons_of_mem _ hx))
          (fun key hkey => by
            rw [List.map_append] at hkey
            rcases List.mem_append.mp hkey with h1 | h2
            · exact habs key h1
            · simp only [List.map_cons, List.map_nil, List.mem_singleton] at h2
              show isAbs key = true
              rw [h2]
              show isAbs (fileValueOf (k, f)).1 = true
              unfold fileValueOf
              show isAbs (stripSlash k) = true
              rw [← hsl2]
              rfl)
          (by
            rw [List.map_append]
            show ((t0.files.map Prod.fst ++ [(fileValueOf (k, f)).1]) ++
              rest.map (fun kf => stripSlash kf.1)).Nodup
            rw [List.append_assoc, List.singleton_append]
            show (t0.files.map Prod.fst ++
              stripSlash k :: rest.map (fun kf => stripSlash kf.1)).Nodup
            exact hnd)]
    rw [List.append_assoc, List.singleton_append]
    rfl

theorem filterMap_lookup_map {β : Type} (l : List (Str × FileData)) (g : Str → FileData → β) :
    ∀ ks : List Str,
      ks.filterMap (fun path => (List.lookup path l).map (fun f => g path f)) =
        (ks.filterMap (fun k => (List.lookup k l).map (fun f => (k, f)))).map
          (fun kf => g kf.1 kf.2) := by
  intro ks
  induction ks with
  | nil => rfl
  | cons k0 rest ih =>
    rcases hlk : List.lookup k0 l with _ | f
    · rw [List.filterMap_cons_none (by rw [hlk]; rfl),
          List.filterMap_cons_none (by rw [hlk]; rfl)]
      exact ih
    · rw [List.filterMap_cons_some (by rw [hlk]; rfl),
          List.filterMap_cons_some (by rw [hlk]; rfl)]
      rw [List.map_cons]
      exact congrArg _ ih

theorem fillDataArchive_eq (t : T) (m : Int) :
    fillDataArchive t m =
      addArchiveEntry (directoryHeader ('.' :: '/' :: []) m) none
        :: (qOf t).map (fun kf => addArchiveEntry kf.2.header kf.2.data) := by
  unfold fillDataArchive qOf
  rw [filterMap_lookup_map t.files (fun _ f => addArchiveEntry f.header f.data)]

theorem qOf_lookup_mem (t : T) : ∀ kf ∈ qOf t, List.lookup kf.1 t.files = some kf.2 := by
  intro kf hkf
  unfold qOf at hkf
  rcases List.mem_filterMap.mp hkf with ⟨k0, hk0, heq⟩
  rcases hlk : List.lookup k0 t.files with _ | f
  · rw [hlk] at heq
    cases heq
  · rw [hlk] at heq
    injection heq with heq
    rw [← heq]
    exact hlk

theorem qOf_mem_files (t : T) : ∀ kf ∈ qOf t, kf ∈ t.files := by
  intro kf hkf
  rcases kf with ⟨k, f⟩
  exact mem_of_lookup k f t.files (qOf_lookup_mem t (k, f) hkf)

theorem qOf_map_fst (t : T) : (qOf t).map Prod.fst = sortStrs (t.files.map Prod.fst) := by
  unfold qOf
  have hgen : ∀ ks : List Str, (∀ k ∈ ks, k ∈ t.files.map Prod.fst) →
      (ks.filterMap (fun k => (List.lookup k t.files).map (fun f => (k, f)))).map Prod.fst
        = ks := by
    intro ks
    induction ks with
    | nil => intro _; rfl
    | cons k0 rest ih =>
      intro h
      have hs := lookup_isSome_of_mem k0 t.files (h k0 (List.mem_cons_self k0 rest))
      rcases hlk : List.lookup k0 t.files with _ | f
      · rw [hlk] at hs
        cases hs
      · rw [List.filterMap_cons_some (by rw [hlk]; rfl)]
        rw [List.map_cons]
        rw [ih (fun x hx => h x (List.mem_cons_of_mem _ hx))]
  exact hgen _ (fun k hk => sortStrs_mem _ k hk)

theorem qOf_mem_of_lookup (t : T) (k : Str) (f : FileData)
    (h : List.lookup k t.files = some f) : (k, f) ∈ qOf t := by
  unfold qOf
  apply List.mem_filterMap.mpr
  refine ⟨k, ?_, by rw [h]; rfl⟩
  exact (List.perm_insertionSort (fun a b => a ≤ b) _).mem_iff.mpr
    (List.mem_map_of_mem Prod.fst (mem_of_lookup k f t.files h))

theorem qOf_strip_nodup (t : T)
    (hnds : (t.files.map (fun kf => stripSlash kf.1)).Nodup) :
    ((qOf t).map (fun kf => stripSlash kf.1)).Nodup := by
  have h1 : (qOf t).map (fun kf => stripSlash kf.1)
      = ((qOf t).map Prod.fst).map stripSlash := by
    rw [List.map_map]
    rfl
  have h2 : (t.files.map (fun kf => stripSlash kf.1))
      = (t.files.map Prod.fst).map stripSlash := by
    rw [List.map_map]
    rfl
  rw [h1, qOf_map_fst]
  rw [h2] at hnds
  exact ((List.perm_insertionSort (fun a b => a ≤ b) (t.files.map Prod.fst)).map
    stripSlash).nodup_iff.mpr hnds

theorem readDataArchive_full (t tc : T) (m : Int)
    (hvfl : ∀ kf ∈ t.files, validFile kf = true)
    (hnds : (t.files.map (fun kf => stripSlash kf.1)).Nodup)
    (h0 : tc.files = []) :
    readDataArchive tc (.sub (fillDataArchive t m)) =
      .ok { tc with files := (qOf t).map fileValueOf } := by
  show readDataEntries tc (fillDataArchive t m) = _
  rw [fillDataArchive_eq]
  have hroot : addArchiveEntry (directoryHeader ('.' :: '/' :: []) m) none =
      { header := { name := '.' :: '/' :: [], typeflag := tarTypeDir, mode := 0o755,
                    size := 0, linkname := [], uname := archiveOwner,
                    gname := archiveOwner, modTime := m },
        data := none } := by
    unfold addArchiveEntry
    rw [directoryHeader_eq]
    dsimp only
    rw [(by decide : slash ('.' :: '/' :: []) = '.' :: '/' :: [])]
  rw [hroot, readDataEntries]
  dsimp only
  rw [(by decide : clean (unslash ('.' :: '/' :: [])) = ".".data)]
  rw [if_pos (Or.inl rfl)]
  rw [readDataEntries_fold (qOf t) tc
        (fun kf hkf => hvfl kf (qOf_mem_files t kf hkf))
        (fun key hkey => by rw [h0] at hkey; cases hkey)
        (by
          rw [h0]
          show (List.map Prod.fst ([] : List (Str × FileData)) ++
            (qOf t).map (fun kf => stripSlash kf.1)).Nodup
          rw [List.map_nil, List.nil_append]
          exact qOf_strip_nodup t hnds)]
  rw [h0, List.nil_append]

/-! ## Round-trip development: the outer container -/

/-- The outer entry list produced by a successful `writeTar`. -/
def wEntries (t : T) (m : Int) : List OuterEntry :=
  [ writeDebianBinary m,
    { header := fileHeader (slash controlArchiveName) 0 m,
      content := .sub (dirRootEntry m :: ctrlFileEntry t m
        :: (addConffiles t m ++ scriptEntries t m)) },
    { header := fileHeader (slash dataArchiveName) 0 m,
      content := .sub (fillDataArchive t m) } ]

/-- The package produced by reading back a written package. -/
def tRead (t : T) : T :=
  { fields := mpairs t.fields ++ remainingFields t.fields,
    conffiles := sortStrs t.conffiles,
    scripts := t.scripts,
    files := (qOf t).map fileValueOf }

/-- A validly populated package: all mandatory fields present, all fields,
conffiles, scripts and files individually well formed, and all map keys
free of collisions (also after the trailing-slash strip of the read
cycle). -/
def validT (t : T) : Bool :=
  mandatoryFields.all (fun x => (List.lookup x t.fields).isSome)
    && t.fields.all validField
    && decide ((t.fields.map Prod.fst).Nodup)
    && t.conffiles.all validConf
    && t.scripts.all validScript
    && decide ((t.scripts.map Prod.fst).Nodup)
    && t.files.all validFile
    && decide ((t.files.map (fun kf => stripSlash kf.1)).Nodup)

theorem writeTar_ok (t : T) (m : Int)
    (hall : ∀ x ∈ mandatoryFields, (List.lookup x t.fields).isSome = true) :
    writeTar t m = .ok (wEntries t m) := by
  unfold writeTar
  rw [fillControlArchive_ok t m hall]
  rfl

theorem readControlArchive_full (t : T) (m : Int)
    (hall : ∀ x ∈ mandatoryFields, (List.lookup x t.fields).isSome = true)
    (hvf : ∀ kv ∈ t.fields, validField kv = true)
    (hndf : (t.fields.map Prod.fst).Nodup)
    (hvc : ∀ c ∈ t.conffiles, validConf c = true)
    (hvs : ∀ s ∈ t.scripts, validScript s = true)
    (hnds : (t.scripts.map Prod.fst).Nodup) :
    readControlArchive New (.sub (dirRootEntry m :: ctrlFileEntry t m
        :: (addConffiles t m ++ scriptEntries t m))) = .ok (tControl t) := by
  show readControlEntries New false false _ = _
  exact readControlEntries_full t m hall hvf hndf hvc hvs hnds

theorem readTar_writeTar (t : T) (m : Int) (h : validT t = true) :
    writeTar t m = .ok (wEntries t m) ∧ readTar (wEntries t m) = .ok (tRead t) := by
  simp only [validT, Bool.and_eq_true, List.all_eq_true, decide_eq_true_eq] at h
  obtain ⟨⟨⟨⟨⟨⟨⟨hall, hvf⟩, hndf⟩, hvc⟩, hvs⟩, hnds⟩, hvfl⟩, hndsf⟩ := h
  refine ⟨writeTar_ok t m hall, ?_⟩
  unfold readTar wEntries
  rw [readTarEntries]
  unfold writeDebianBinary
  rw [fileHeader_eq]
  dsimp only
  rw [if_neg (by decide)]
  rw [if_neg (by decide)]
  rw [if_neg (by decide)]
  rw [readTarEntries]
  rw [(by unfold fileHeader specialHeader; rw [if_pos (by decide : (0 : Int) ≥ 0)] :
    fileHeader (slash controlArchiveName) 0 m =
      { name := slash controlArchiveName, typeflag := tarTypeReg, mode := 0o644, size := 0,
        linkname := [], uname := archiveOwner, gname := archiveOwner, modTime := m })]
  dsimp only
  rw [if_neg (by decide)]
  rw [if_pos (by decide : unslash (slash controlArchiveName) = controlArchiveName)]
  rw [if_neg (by decide)]
  rw [readControlArchive_full t m hall hvf hndf hvc hvs hnds]
  show readTarEntries (tControl t) true false
      [{ header := fileHeader (slash dataArchiveName) 0 m,
         content := .sub (fillDataArchive t m) }] = _
  rw [readTarEntries]
  rw [(by unfold fileHeader specialHeader; rw [if_pos (by decide : (0 : Int) ≥ 0)] :
    fileHeader (slash dataArchiveName) 0 m =
      { name := slash dataArchiveName, typeflag := tarTypeReg, mode := 0o644, size := 0,
        linkname := [], uname := archiveOwner, gname := archiveOwner, modTime := m })]
  dsimp only
  rw [if_neg (by decide)]
  rw [if_neg (by decide)]
  rw [if_pos (by decide : unslash (slash dataArchiveName) = dataArchiveName)]
  rw [if_neg (by decide)]
  rw [readDataArchive_full t (tControl t) m hvfl hndsf rfl]
  show readTarEntries { tControl t with files := (qOf t).map fileValueOf } true true [] = _
  rw [readTarEntries]
  rw [if_neg (by decide)]
  rfl

theorem tRead_fileNames (t : T) :
    FileNames (tRead t) = (sortStrs (FileNames t)).map stripSlash := by
  show ((qOf t).map fileValueOf).map Prod.fst = _
  rw [List.map_map]
  show (qOf t).map (fun kf : Str × FileData => stripSlash kf.1) = _
  rw [(by rw [List.map_map]; rfl :
    (qOf t).map (fun kf : Str × FileData => stripSlash kf.1) =
      ((qOf t).map Prod.fst).map stripSlash)]
  rw [qOf_map_fst]
  rfl

theorem tRead_lookup (t : T)
    (hndsf : (t.files.map (fun kf => stripSlash kf.1)).Nodup)
    (k : Str) (f : FileData) (h : List.lookup k t.files = some f) :
    List.lookup (stripSlash k) (tRead t).files =
      some { header := { f.header with name := slash k }, data := f.data } := by
  apply lookup_of_mem_nodup
  · exact List.mem_map_of_mem fileValueOf (qOf_mem_of_lookup t k f h)
  · show (((qOf t).map fileValueOf).map Prod.fst).Nodup
    rw [List.map_map]
    exact qOf_strip_nodup t hndsf

/-- Claim C1 (amended): for a validly populated package, writing with
`FormatTar` or `FormatTarGZip` and reading the result back succeeds and
yields a package with an equal field map (as a lookup function), the
conffile list in sorted order, the identical script map, and a file tree
whose keys are the original keys in sorted order with the trailing
separator of directory keys stripped; each original entry is found under
its stripped key with its header intact except that the name field carries
the written `./`-prefixed form.  The file tree is NOT recovered literally:
a directory key such as `/a/` comes back as `/a` (see
`round_trip_counterexample`). -/
theorem round_trip_amended (t : T) (format : Nat) (m : Int)
    (hfmt : format = FormatTar ∨ format = FormatTarGZip)
    (h : validT t = true) :
    ∃ es lvl t1, Write t format m = .ok (es, lvl) ∧ readTar es = .ok t1
      ∧ (∀ k, List.lookup k t1.fields = List.lookup k t.fields)
      ∧ t1.conffiles = sortStrs t.conffiles
      ∧ t1.scripts = t.scripts
      ∧ FileNames t1 = (sortStrs (FileNames t)).map stripSlash
      ∧ (∀ k f, List.lookup k t.files = some f →
          List.lookup (stripSlash k) t1.files =
            some { header := { f.header with name := slash k }, data := f.data }) := by
  obtain ⟨hw, hr⟩ := readTar_writeTar t m h
  have hall : ∀ x ∈ mandatoryFields, (List.lookup x t.fields).isSome = true := by
    simp only [validT, Bool.and_eq_true, List.all_eq_true, decide_eq_true_eq] at h
    exact h.1.1.1.1.1.1.1
  have hndsf : (t.files.map (fun kf => stripSlash kf.1)).Nodup := by
    simp only [validT, Bool.and_eq_true, List.all_eq_true, decide_eq_true_eq] at h
    exact h.2
  refine ⟨wEntries t m, newTempArchiveLevel (writeInnerCompress format), tRead t, ?_, hr,
    fun k => lookup_fields_roundtrip t.fields k hall, rfl, rfl, tRead_fileNames t,
    fun k f hkf => tRead_lookup t hndsf k f hkf⟩
  rcases hfmt with he | he
  · subst he
    unfold Write
    rw [if_neg (by decide)]
    rw [hw]
  · subst he
    unfold Write
    rw [if_neg (by decide)]
    rw [hw]

/-- A validly populated package holding the five mandatory fields and one
directory at `/a/`. -/
def c1pkg : T :=
  { fields := [(ControlPackage, "a".data), (ControlVersion, "1".data),
               (ControlArch, "all".data), (ControlMaintainer, "m".data),
               (ControlDesc, "d".data)],
    conffiles := [], scripts := [],
    files := [("/a/".data,
      { header := { name := "/a/".data, typeflag := tarTypeDir, mode := 0o755, size := 0,
                    linkname := [], uname := archiveOwner, gname := archiveOwner,
                    modTime := 0 }, data := none })] }

/-- The package `c1pkg` comes back as after a write/read cycle: the
directory key has lost its trailing separator and the header name carries
the slashed form. -/
def c1read : T :=
  { fields := [(ControlPackage, "a".data), (ControlVersion, "1".data),
               (ControlArch, "all".data), (ControlMaintainer, "m".data),
               (ControlDesc, "d".data)],
    conffiles := [], scripts := [],
    files := [("/a".data,
      { header := { name := "./a/".data, typeflag := tarTypeDir, mode := 0o755, size := 0,
                    linkname := [], uname := archiveOwner, gname := archiveOwner,
                    modTime := 0 }, data := none })] }

/-- Claim C1 counterexample: a validly populated package containing the
directory `/a/` does not survive the write/read cycle unchanged — the file
tree key comes back as `/a`, so `read(write(p)) ≠ p`. -/
theorem round_trip_counterexample :
    validT c1pkg = true
    ∧ (writeTar c1pkg 0).bind readTar = .ok c1read
    ∧ FileNames c1pkg = ["/a/".data]
    ∧ FileNames c1read = ["/a".data]
    ∧ c1read ≠ c1pkg := by
  decide

/-- Witness for `round_trip_amended` at the concrete package `c1pkg`. -/
theorem round_trip_amended_witness :
    ∃ es lvl t1, Write c1pkg FormatTar 0 = .ok (es, lvl) ∧ readTar es = .ok t1
      ∧ (∀ k, List.lookup k t1.fields = List.lookup k c1pkg.fields)
      ∧ t1.conffiles = sortStrs c1pkg.conffiles
      ∧ t1.scripts = c1pkg.scripts
      ∧ FileNames t1 = (sortStrs (FileNames c1pkg)).map stripSlash
      ∧ (∀ k f, List.lookup k c1pkg.files = some f →
          List.lookup (stripSlash k) t1.files =
            some { header := { f.header with name := slash k }, data := f.data }) :=
  round_trip_amended c1pkg FormatTar 0 (Or.inl rfl) (by decide)

end GoIpk
